import Mathlib

/-!
Verification development for the openwebui-chat-collapser browser extension
(single source file `src/content.ts`).  The DOM-manipulating code is shallowly
embedded: the document is a rose tree of element and text nodes, DOM mutation
becomes pure tree surgery, and the stateful click handlers become explicit
state-passing functions.  Element identity (live node references held across
mutations) is modelled by a numeric id carried on each element node together
with a fresh-id counter; JavaScript string `trim` is modelled on lists of
characters over the common ASCII whitespace characters.
-/

namespace ChatCollapser

/-! ### Character-level helpers (JS `String.prototype.trim`, substring tests) -/

/-- Whitespace test used by the model of JS `trim` (ASCII whitespace). -/
def isWsChar (c : Char) : Bool :=
  c == ' ' || c == '\n' || c == '\t' || c == '\r'

/-- Left trim: drop leading whitespace. -/
def trimLeftC (s : List Char) : List Char := s.dropWhile isWsChar

/-- Right trim: drop trailing whitespace. -/
def trimRightC (s : List Char) : List Char :=
  (s.reverse.dropWhile isWsChar).reverse

/-- Model of JS `String.prototype.trim`. -/
def trimC (s : List Char) : List Char := trimRightC (trimLeftC s)

/-- Boolean test: `a` is a leading segment of `b`. -/
def leadsB : List Char → List Char → Bool
  | [], _ => true
  | _ :: _, [] => false
  | a :: as, b :: bs => a == b && leadsB as bs

/-- Boolean substring test (models CSS `[class*="…"]` attribute matching). -/
def containsSub (needle : List Char) : List Char → Bool
  | [] => leadsB needle []
  | c :: rest => leadsB needle (c :: rest) || containsSub needle rest

/-- The class attribute string of an element, from its class list
(space-joined, as the DOM serialises `className`). -/
def classAttrOf : List String → List Char
  | [] => []
  | [c] => c.toList
  | c :: rest => c.toList ++ ' ' :: classAttrOf rest

/-! ## Scan Scheduler (`content.ts` lines 360-379)

The `MutationObserver` callback: a mutation batch is a list of mutation
records, each carrying the node types of its added nodes.  If any record
added a node of type 1 (an element), the callback calls `setTimeout` with the
fixed 100 ms delay.  The model counts the timers scheduled and not yet fired:
each `setTimeout` call adds one pending scheduled scan; the code keeps no
flag and never inspects or cancels previously scheduled timers. -/

namespace Sched

/-- One `MutationRecord`: the `nodeType` values of its `addedNodes`. -/
structure MutationRecord where
  addedNodes : List Nat
deriving DecidableEq

/-- The `shouldProcess` flag for one batch: some record added a node with
`nodeType === 1`. -/
def batchShouldProcess (ms : List MutationRecord) : Bool :=
  ms.any (fun m => m.addedNodes.any (fun nt => nt == 1))

/-- The observer callback acting on the count of pending scheduled scans:
a qualifying batch calls `setTimeout(..., 100)`, adding one pending scan,
unconditionally on how many are already pending. -/
def observerCallback (pending : Nat) (ms : List MutationRecord) : Nat :=
  if batchShouldProcess ms then pending + 1 else pending

/-- Pending scans after a sequence of mutation batches (all arriving within
one delay window, so no timer has fired in between). -/
def pendingAfter (batches : List (List MutationRecord)) : Nat :=
  batches.foldl observerCallback 0

/-- A batch consisting of one record that added one element node. -/
def elementBatch : List MutationRecord := [⟨[1]⟩]

end Sched

/-! ## Global toggle button insertion (`content.ts` lines 315-343) -/

namespace BtnIns

/-- A candidate container for the global button, identified by its DOM
`tagName` (upper case, as `Element.tagName` reports for HTML). -/
structure Container where
  tagName : String
deriving DecidableEq

/-- The container queries `insertCollapseAllButton` performs, plus whether an
element with the button id `collapse-all-btn` is already present.
`document.body` is always present (the script runs against a loaded page). -/
structure BtnDoc where
  btnExists : Bool
  headerTag : Option Container
  headerClass : Option Container
  navEl : Option Container
  mainEl : Option Container
  body : Container
deriving DecidableEq

/-- Where the button ends up inside its container. -/
inductive InsertPos where
  | appended
  | prepended
deriving DecidableEq

/-- First non-`none` entry of a list of options
(`possibleContainers.find((el) => el !== null)`). -/
def firstSome : List (Option Container) → Option Container
  | [] => none
  | some c :: _ => some c
  | none :: rest => firstSome rest

/-- Model of `insertCollapseAllButton`: dedupe on the fixed id, then insert into the
first available of header tag, header-class element, nav, main, body;
appended for HEADER/NAV containers, prepended otherwise.  Returns the
container receiving the button and the position, `none` when nothing is
inserted. -/
def insertCollapseAllButton (d : BtnDoc) : Option (Container × InsertPos) :=
  if d.btnExists then none
  else
    match firstSome [d.headerTag, d.headerClass, d.navEl, d.mainEl, some d.body] with
    | none => none
    | some c =>
        if c.tagName == "HEADER" || c.tagName == "NAV" then some (c, .appended)
        else some (c, .prepended)

/-- The claim's preference order: header (a header element, by tag or by
class), then navigation, then main, then body. -/
def claimTarget (d : BtnDoc) : Container :=
  ((((d.headerTag).or d.headerClass).or d.navEl).or d.mainEl).getD d.body

end BtnIns

/-! ## Toggle state machine and global toggle (`content.ts` lines 89-130 and
138-177)

A wrapper's observable collapse state lives in three places: the `collapsed`
class on the `.message-content` region, the `collapsed` class on the
`.collapse-toggle` control and the control's `aria-expanded` attribute.  Both
handlers look the content region up with `querySelector` and bail out when it
is missing, so the content marker is modelled as an `Option Bool`; the toggle
control itself is created unconditionally together with the wrapper and the
individual handler holds a direct reference to it, so it is modelled as
always present. -/

namespace Toggle

/-- One `.message-wrapper`: collapsed marker of the content region (if the
region is still present), collapsed marker of the toggle control, and the
toggle control's `aria-expanded` attribute value. -/
structure Wrapper where
  contentCollapsed : Option Bool
  toggleCollapsed : Bool
  ariaExpanded : String
deriving DecidableEq

/-- A freshly created wrapper (`createCollapseColumn` sets
`aria-expanded="true"`; no `collapsed` class is added anywhere). -/
def initialWrapper : Wrapper := ⟨some false, false, "true"⟩

/-- The wrapper state forced by the global toggle for a given aggregate
value. -/
def forcedWrapper (collapsed : Bool) : Wrapper :=
  if collapsed then ⟨some true, true, "false"⟩ else ⟨some false, false, "true"⟩

/-- The per-wrapper click handler (`handleToggle`, lines 153-174): look up the
content region, bail out when missing, read its `collapsed` marker, then
flip the three state carriers together. -/
def handleToggle (w : Wrapper) : Wrapper :=
  match w.contentCollapsed with
  | none => w
  | some isCollapsed =>
      if isCollapsed then ⟨some false, false, "true"⟩
      else ⟨some true, true, "false"⟩

/-- The per-wrapper body of `toggleAllMessages` (lines 98-113): when the
content region (and the toggle, always present in the model) is found, force
all three carriers to the new aggregate value. -/
def applyAll (isAllCollapsed : Bool) (w : Wrapper) : Wrapper :=
  match w.contentCollapsed with
  | none => w
  | some _ =>
      if isAllCollapsed then ⟨some true, true, "false"⟩
      else ⟨some false, false, "true"⟩

/-- The global toggle button: its `span` label and its `svg` icon transform,
each `Option` because the code only writes them when `querySelector` finds
them. -/
structure Btn where
  spanText : Option String
  svgTransform : Option String
deriving DecidableEq

/-- The page state the toggle code touches: the module-level
`state.isAllCollapsed` boolean, every `.message-wrapper` in the document, and
the global button when `getElementById` finds it. -/
structure Page where
  isAllCollapsed : Bool
  wrappers : List Wrapper
  button : Option Btn
deriving DecidableEq

/-- Model of `toggleAllMessages` (lines 89-130): flip the aggregate boolean, force
every wrapper to it, then rewrite the button label and icon from the new
aggregate value. -/
def toggleAllMessages (p : Page) : Page :=
  let c := !p.isAllCollapsed
  { isAllCollapsed := c
    wrappers := p.wrappers.map (applyAll c)
    button := p.button.map (fun b =>
      { spanText := b.spanText.map (fun _ => if c then "Expand All" else "Collapse All")
        svgTransform := b.svgTransform.map (fun _ => if c then "rotate(-90deg)" else "rotate(0deg)") }) }

/-- A user interaction: an individual wrapper's toggle (or its vertical line
or preview, all routed to the same handler), or the global button. -/
inductive Op where
  | individual (i : Nat)
  | global
deriving DecidableEq

/-- Route a click to the handler closed over wrapper `i` (clicks on other
wrappers are separate events; an index past the end clicks nothing). -/
def modifyAt (i : Nat) (f : Wrapper → Wrapper) : List Wrapper → List Wrapper
  | [] => []
  | w :: ws =>
      match i with
      | 0 => f w :: ws
      | j + 1 => w :: modifyAt j f ws

/-- Apply one interaction to the page. -/
def step (p : Page) : Op → Page
  | .individual i => { p with wrappers := modifyAt i handleToggle p.wrappers }
  | .global => toggleAllMessages p

/-- Run a sequence of interactions. -/
def run (p : Page) (ops : List Op) : Page := ops.foldl step p

/-- The three state carriers of one wrapper agree, with `aria-expanded` equal
to `"true"` exactly in the expanded state (stated for wrappers whose content
region is present). -/
def consistent (w : Wrapper) : Prop :=
  ∀ c, w.contentCollapsed = some c →
    w.toggleCollapsed = c ∧ w.ariaExpanded = (if c then "false" else "true")

instance (w : Wrapper) : Decidable (consistent w) := by
  unfold consistent; infer_instance

end Toggle

/-! ## Document model

The host document is a rose tree of element and text nodes rooted at the
document element.  Live element references (held by the scan across DOM
mutations) are modelled by a numeric id on each element node, a model
artifact standing for JS object identity; created elements draw fresh ids
from a counter threaded through the state.  Tag names are stored lower case
(HTML tag matching is case-insensitive) and class lists as token lists;
`classAttrOf` rebuilds the serialised class attribute for the CSS
`[class*="…"]` substring selectors, while `.foo` selectors test token
membership.  Text nodes carry their character data. -/

inductive Node where
  | elem (eid : Nat) (tag : String) (classes : List String)
      (attrs : List (String × String)) (children : List Node)
  | text (s : List Char)

/-- Element id; 0 for text nodes (never looked up: lookups guard on
elementhood). -/
def eidN : Node → Nat
  | .elem i _ _ _ _ => i
  | .text _ => 0

/-- Element-node test (`nodeType === 1`). -/
def isElemN : Node → Bool
  | .elem _ _ _ _ _ => true
  | .text _ => false

/-- Tag name (empty for text nodes). -/
def tagN : Node → String
  | .elem _ tg _ _ _ => tg
  | .text _ => ""

/-- Class token list (empty for text nodes). -/
def classesN : Node → List String
  | .elem _ _ cl _ _ => cl
  | .text _ => []

/-- Attribute list (empty for text nodes). -/
def attrsN : Node → List (String × String)
  | .elem _ _ _ ats _ => ats
  | .text _ => []

/-- Child list (empty for text nodes). -/
def childrenN : Node → List Node
  | .elem _ _ _ _ cs => cs
  | .text _ => []

/-- Membership of a class token (`classList.contains`, also the `.foo` class selector). -/
def hasClassB (n : Node) (s : String) : Bool := (classesN n).contains s

/-- The serialised `className` attribute of a node. -/
def classAttrC (n : Node) : List Char := classAttrOf (classesN n)

/-- Exact attribute selector `[key="val"]`. -/
def attrIs (n : Node) (key val : String) : Bool :=
  (attrsN n).lookup key == some val

mutual

/-- Concatenated character data of the subtree (`Node.textContent`). -/
def textContentOf : Node → List Char
  | .elem _ _ _ _ cs => textContentL cs
  | .text s => s

def textContentL : List Node → List Char
  | [] => []
  | c :: rest => textContentOf c ++ textContentL rest

end

/-- The value of `textContent.trim().length` for a node. -/
def trimmedLen (n : Node) : Nat := (trimC (textContentOf n)).length

/-- The structural-child selector list of `processMessages`
(`"p, pre, code, ul, ol, h1, h2, h3, span"`). -/
def structuralTags : List String :=
  ["p", "pre", "code", "ul", "ol", "h1", "h2", "h3", "span"]

mutual

/-- Self-or-descendant carries a structural tag. -/
def structIncl : Node → Bool
  | .elem _ tg _ _ cs => structuralTags.contains tg || structL cs
  | .text _ => false

def structL : List Node → Bool
  | [] => false
  | c :: rest => structIncl c || structL rest

end

/-- `msg.querySelector("p, pre, code, ul, ol, h1, h2, h3, span") !== null`:
some strict descendant carries a structural tag. -/
def hasStructB (n : Node) : Bool := structL (childrenN n)

mutual

/-- All element ids of a tree, in document (preorder) order. -/
def allIds : Node → List Nat
  | .elem i _ _ _ cs => i :: allIdsL cs
  | .text _ => []

def allIdsL : List Node → List Nat
  | [] => []
  | c :: rest => allIds c ++ allIdsL rest

end

/-! ### The candidate selectors of `processMessages` (lines 271-281) -/

def sel1 (n : Node) : Bool := isElemN n && hasClassB n "prose"
def sel2 (n : Node) : Bool := isElemN n && containsSub "Message".toList (classAttrC n)
def sel3 (n : Node) : Bool := isElemN n && hasClassB n "message"
def sel4 (n : Node) : Bool := isElemN n && hasClassB n "chat-message"
def sel5 (n : Node) : Bool := tagN n == "div" && containsSub "message-".toList (classAttrC n)
def sel6 (n : Node) : Bool := isElemN n && attrIs n "role" "article"
def sel7 (n : Node) : Bool := isElemN n && attrIs n "role" "row"
def sel8 (n : Node) : Bool :=
  tagN n == "div" && containsSub "whitespace-pre-wrap".toList (classAttrC n)
def sel9 (n : Node) : Bool := tagN n == "div" && containsSub "markdown".toList (classAttrC n)

/-- The selector strategies, in source order. -/
def selList : List (Node → Bool) := [sel1, sel2, sel3, sel4, sel5, sel6, sel7, sel8, sel9]

/-- A node matched by at least one selector strategy. -/
def matchesAny (n : Node) : Bool := selList.any (fun s => s n)

mutual

/-- Ids of the elements matched by one selector, in document order
(one `querySelectorAll`). -/
def collectS (s : Node → Bool) : Node → List Nat
  | .elem i tg cl ats cs =>
      (if s (.elem i tg cl ats cs) then [i] else []) ++ collectL s cs
  | .text _ => []

def collectL (s : Node → Bool) : List Node → List Nat
  | [] => []
  | c :: rest => collectS s c ++ collectL s rest

end

/-- First-occurrence deduplication: the iteration order of a JS `Set` built
by repeated `add`. -/
def dedupFirst : List Nat → List Nat
  | [] => []
  | a :: l => a :: dedupFirst (l.filter (fun x => !(x == a)))
termination_by l => l.length
decreasing_by
  simp only [List.length_cons]
  exact Nat.lt_succ_of_le (List.length_filter_le _ _)

/-- The `foundMessages` set of `processMessages`: the union of all selector
matches, keyed by element identity, in insertion order. -/
def candidates (t : Node) : List Nat :=
  dedupFirst (List.flatten (selList.map (fun s => collectS s t)))

/-! ### Ancestor context and tree surgery -/

/-- The ancestor-accumulated facts `Element.closest` reads: an ancestor with
the `message-wrapper` class token (`closest(".message-wrapper")`), an
ancestor whose class attribute contains `"user"`, and likewise
`"assistant"`. -/
structure Ctx where
  underWrapper : Bool
  userAnc : Bool
  assistantAnc : Bool
deriving DecidableEq

/-- Context at the document root: no ancestors. -/
def initCtx : Ctx := ⟨false, false, false⟩

/-- Push one ancestor element's class list onto the context. -/
def pushCtx (acc : Ctx) (cl : List String) : Ctx :=
  ⟨acc.underWrapper || cl.contains "message-wrapper",
   acc.userAnc || containsSub "user".toList (classAttrOf cl),
   acc.assistantAnc || containsSub "assistant".toList (classAttrOf cl)⟩

/-- Subtree at a path of child indices. -/
def getAt? : List Nat → Node → Option Node
  | [], n => some n
  | i :: p, .elem _ _ _ _ cs =>
      match cs[i]? with
      | some c => getAt? p c
      | none => none
  | _ :: _, .text _ => none

/-- Replace the subtree at a path (identity on invalid paths). -/
def setAt : List Nat → Node → Node → Node
  | [], x, _ => x
  | i :: p, x, .elem e tg cl ats cs =>
      match cs[i]? with
      | some c => .elem e tg cl ats (cs.set i (setAt p x c))
      | none => .elem e tg cl ats cs
  | _ :: _, _, .text s => .text s

/-- Context accumulated over the proper ancestors of the node at a path. -/
def ctxAt : List Nat → Ctx → Node → Ctx
  | [], acc, _ => acc
  | i :: p, acc, .elem _ _ cl _ cs =>
      match cs[i]? with
      | some c => ctxAt p (pushCtx acc cl) c
      | none => acc
  | _ :: _, acc, .text _ => acc

mutual

/-- Path of the (first, in document order) element with a given id: the
model of dereferencing a live element reference inside the current tree. -/
def findPath (mid : Nat) : Node → Option (List Nat)
  | .elem i _ _ _ cs => if i == mid then some [] else findPathL mid 0 cs
  | .text _ => none

def findPathL (mid k : Nat) : List Node → Option (List Nat)
  | [] => none
  | c :: rest =>
      match findPath mid c with
      | some p => some (k :: p)
      | none => findPathL mid (k + 1) rest

end

/-- Boolean path-prefix test. -/
def pathLE : List Nat → List Nat → Bool
  | [], _ => true
  | _ :: _, [] => false
  | a :: p, b :: q => a == b && pathLE p q

/-- The idempotence guard of the classifier and transform:
`element.closest(".message-wrapper") !== null`, split into the ancestor part
(from the context at the element's path) and the self part. -/
def guardB (t : Node) (p : List Nat) (n : Node) : Bool :=
  (ctxAt p initCtx t).underWrapper || hasClassB n "message-wrapper"

/-- The node-local data of a node: id, tag, class list, attributes and
elementhood — everything the selectors and the classifier read off a node
itself (as opposed to its subtree or its ancestors). -/
def nodeData (n : Node) : Nat × String × List String × List (String × String) × Bool :=
  (eidN n, tagN n, classesN n, attrsN n, isElemN n)

/-! ### The augmentation transform (`addToggleToMessage`, lines 185-264) -/

mutual

/-- Model of `querySelector("#response-content-container")`:
first self-or-descendant element with the response-content id. -/
def findRespC : Node → Option Node
  | .elem i tg cl ats cs =>
      if attrIs (.elem i tg cl ats cs) "id" "response-content-container" then
        some (.elem i tg cl ats cs)
      else findRespL cs
  | .text _ => none

def findRespL : List Node → Option Node
  | [] => none
  | c :: rest =>
      match findRespC c with
      | some x => some x
      | none => findRespL rest

end

/-- The user-role heuristic of `addToggleToMessage` (lines 204-206):
`classList.contains("user")` or some self-or-ancestor class attribute
containing `"user"`. -/
def isUserB (ctx : Ctx) (m : Node) : Bool :=
  hasClassB m "user" || containsSub "user".toList (classAttrC m) || ctx.userAnc

/-- The assistant-role heuristic (lines 207-209). -/
def isAssistantB (ctx : Ctx) (m : Node) : Bool :=
  hasClassB m "assistant" || containsSub "assistant".toList (classAttrC m) ||
    ctx.assistantAnc

/-- The response-content text of a non-user message: the trimmed text of the
first element carrying the response-content id inside the relocated element
(itself included), empty when absent.  (The source queries the assembled
content container; the preview and content-region divs it adds carry no id,
so the query reduces to this.) -/
def respTextC (m : Node) : List Char :=
  match findRespC m with
  | some el => trimC (textContentOf el)
  | none => []

/-- The wrapped structure `addToggleToMessage` builds around an accepted
message element `m` (with ancestor context `ctx`), drawing nine fresh
element ids from `ctr`: the `.message-wrapper` div owning the collapse
column (toggle button with its svg arrow, vertical line) and the content
container (preview div, `.message-content` region that receives the
relocated original element).  The preview text is computed after assembly by
querying the content container, exactly as in the source. -/
def wrapElem (ctr : Nat) (ctx : Ctx) (m : Node) : Node :=
  let isUser := isUserB ctx m
  let isAssistant := isAssistantB ctx m
  let wrapCl := ["message-wrapper"] ++ (if isUser then ["user-message"] else []) ++
    (if isAssistant then ["assistant-message"] else [])
  let pathN : Node := .elem (ctr + 4) "path" []
    [("d", "M3 6L8 11L13 6"), ("stroke", "currentColor"), ("stroke-width", "2"),
     ("stroke-linecap", "round"), ("stroke-linejoin", "round")] []
  let svgN : Node := .elem (ctr + 3) "svg" []
    [("viewBox", "0 0 16 16"), ("fill", "none"),
     ("xmlns", "http://www.w3.org/2000/svg")] [pathN]
  let toggleN : Node := .elem (ctr + 2) "button" ["collapse-toggle"]
    [("aria-expanded", "true"), ("aria-label", "Toggle message")] [svgN]
  let lineN : Node := .elem (ctr + 5) "div" ["collapse-line"] [] []
  let columnN : Node := .elem (ctr + 1) "div" ["collapse-column"] [] [toggleN, lineN]
  let contentWrapperN : Node := .elem (ctr + 8) "div" ["message-content"] [] [m]
  let previewBare : Node := .elem (ctr + 7) "div" ["message-preview"] [] []
  let tcRaw := if isUser then trimC (textContentOf m)
    else
      match findRespL [previewBare, contentWrapperN] with
      | some el => trimC (textContentOf el)
      | none => []
  let pv := tcRaw.take 150 ++ (if 150 < tcRaw.length then "...".toList else [])
  let previewN : Node := .elem (ctr + 7) "div" ["message-preview"] [] [.text pv]
  let contentContainerN : Node := .elem (ctr + 6) "div" ["message-content-container"] []
    [previewN, contentWrapperN]
  .elem ctr "div" wrapCl [] [columnN, contentContainerN]

/-- The document plus the fresh-id counter for created elements. -/
structure St where
  tree : Node
  ctr : Nat

/-- Model of `addToggleToMessage` (lines 185-264) on the element with id `mid`: skip
when already inside (or itself) a wrapper, skip when the trimmed text is
shorter than 20 characters, degrade to a no-op when the element has no
parent (it is the root, or it is no longer in the document), otherwise
replace the element in place by the wrapped structure built around it
(insert the wrapper at its position under its parent and relocate the
element into the content region). -/
def addToggleToMessage (st : St) (mid : Nat) : St :=
  match findPath mid st.tree with
  | none => st
  | some p =>
      match getAt? p st.tree with
      | none => st
      | some m =>
          let ctx := ctxAt p initCtx st.tree
          if ctx.underWrapper || hasClassB m "message-wrapper" then st
          else if trimmedLen m < 20 then st
          else
            match p with
            | [] => st
            | _ :: _ => ⟨setAt p (wrapElem st.ctr ctx m) st.tree, st.ctr + 9⟩

/-- The per-candidate body of the `foundMessages.forEach` in
`processMessages` (lines 293-309): skip when inside a wrapper, skip tiny
elements, then wrap when a structural child exists or the text is longer
than 50 characters. -/
def processStep (st : St) (mid : Nat) : St :=
  match findPath mid st.tree with
  | none => st
  | some p =>
      match getAt? p st.tree with
      | none => st
      | some m =>
          let ctx := ctxAt p initCtx st.tree
          if ctx.underWrapper || hasClassB m "message-wrapper" then st
          else if trimmedLen m < 20 then st
          else if hasStructB m || 50 < trimmedLen m then addToggleToMessage st mid
          else st

/-- Model of `processMessages` (lines 267-312): collect the candidate set over all
selector strategies, then process each candidate in insertion order against
the live (mutating) document. -/
def processMessages (st : St) : St :=
  (candidates st.tree).foldl processStep st

/-- Well-formedness of the model state: element ids are distinct (distinct
live nodes) and below the fresh-id counter. -/
def WFst (st : St) : Prop :=
  (allIds st.tree).Nodup ∧ ∀ i ∈ allIds st.tree, i < st.ctr

instance (st : St) : Decidable (WFst st) := by
  unfold WFst; infer_instance

/-- The invariant carried through one scan: every element of the document
(other than the root) that matches a candidate selector, is not inside (or
itself) a wrapper, and whose id is not among the still-unprocessed
candidates, fails the acceptance filter.  At the end of a scan (no
candidates left) this says a further scan has nothing to wrap. -/
def scanInv (cs : List Nat) (st : St) : Prop :=
  ∀ (q : List Nat) (n : Node), getAt? q st.tree = some n → isElemN n = true →
    matchesAny n = true → q ≠ [] →
    ((ctxAt q initCtx st.tree).underWrapper || hasClassB n "message-wrapper") = false →
    eidN n ∉ cs →
    ¬ (20 ≤ trimmedLen n ∧ (hasStructB n = true ∨ 50 < trimmedLen n))

/-- The preview source text (spec §4.2 step 4): the element's own trimmed
text for a user-classified message, otherwise the response-content text. -/
def previewSrc (ctx : Ctx) (m : Node) : List Char :=
  if isUserB ctx m then trimC (textContentOf m) else respTextC m

/-- Truncation to 150 characters with an ellipsis marker appended exactly
when the untruncated text is longer than 150 characters. -/
def truncate150 (tc : List Char) : List Char :=
  tc.take 150 ++ (if 150 < tc.length then "...".toList else [])

/-! ### Concrete example documents for the individual claims -/

/-- A message with 19 characters of trimmed text (below the length gate). -/
def exMsg3a : Node := .elem 1 "div" ["message"] [] [.text (List.replicate 19 'a')]

def exDoc3a : Node := .elem 0 "div" [] [] [exMsg3a]

/-- A message with 51 characters of trimmed text and no structural child. -/
def exMsg3b : Node := .elem 1 "div" ["message"] [] [.text (List.replicate 51 'a')]

def exDoc3b : Node := .elem 0 "div" [] [] [exMsg3b]

/-- A message with 30 characters of trimmed text and one structural child. -/
def exMsg3c : Node :=
  .elem 1 "div" ["message"] [] [.elem 2 "p" [] [] [.text (List.replicate 30 'a')]]

def exDoc3c : Node := .elem 0 "div" [] [] [exMsg3c]

/-- A user message element used by the preview example. -/
def exMsg6 : Node := .elem 1 "div" ["user"] [] [.text (List.replicate 30 'a')]

/-- An accepted message for the augmentation example. -/
def exMsg7 : Node :=
  .elem 1 "div" ["message"] [] [.elem 2 "p" [] [] [.text (List.replicate 25 'a')]]

def exDoc7 : Node := .elem 0 "main" [] [] [exMsg7]

/-- A document whose only message already sits inside a wrapper. -/
def exDoc10 : Node :=
  .elem 0 "div" [] [] [.elem 1 "div" ["message-wrapper"] []
    [.elem 2 "div" ["message"] [] [.text (List.replicate 30 'a')]]]

/-- A document used by the detached-element example (no element has id 99). -/
def exDoc8 : Node :=
  .elem 0 "div" [] [] [.elem 1 "div" ["message"] [] [.text (List.replicate 40 'c')]]

/-- A two-message document for the idempotence example. -/
def exDoc2 : Node :=
  .elem 0 "div" [] [] [
    .elem 1 "div" ["message", "user"] [] [.text (List.replicate 60 'b')],
    .elem 2 "div" ["message"] [] [.elem 3 "p" [] [] [.text (List.replicate 30 'a')]]]

/-! # Theorems -/

/-! ### Path algebra: `getAt?`, `setAt`, `ctxAt`, `pathLE` -/

theorem getAt?_append (p q : List Nat) (t : Node) :
    getAt? (p ++ q) t = (getAt? p t).bind (getAt? q) := by
  induction p generalizing t with
  | nil => simp [getAt?]
  | cons i p ih =>
      cases t with
      | text s => simp [getAt?]
      | elem e tg cl ats cs =>
          simp only [List.cons_append, getAt?]
          cases h : cs[i]? with
          | none => simp
          | some c => simp [ih]

theorem pathLE_iff (p q : List Nat) : pathLE p q = true ↔ ∃ r, q = p ++ r := by
  induction p generalizing q with
  | nil => simp [pathLE]
  | cons a p ih =>
      cases q with
      | nil =>
          simp only [pathLE]
          constructor
          · intro h; simp at h
          · rintro ⟨r, h⟩; simp at h
      | cons b q =>
          simp only [pathLE, Bool.and_eq_true, beq_iff_eq, ih]
          constructor
          · rintro ⟨rfl, r, rfl⟩
            exact ⟨r, by simp⟩
          · rintro ⟨r, h⟩
            rw [List.cons_append] at h
            injection h with h1 h2
            exact ⟨h1.symm, r, h2⟩

theorem pathLE_refl (p : List Nat) : pathLE p p = true :=
  (pathLE_iff p p).mpr ⟨[], by simp⟩

theorem pathLE_antisymm (p q : List Nat) (h1 : pathLE p q = true)
    (h2 : pathLE q p = true) : p = q := by
  obtain ⟨r, rfl⟩ := (pathLE_iff p q).mp h1
  obtain ⟨r', hr'⟩ := (pathLE_iff _ _).mp h2
  have hlen := congrArg List.length hr'
  rw [List.length_append, List.length_append] at hlen
  have hr0 : r.length = 0 := by omega
  simp [List.length_eq_zero.mp hr0]

theorem getAt?_setAt_self (p : List Nat) (x t m : Node) (h : getAt? p t = some m) :
    getAt? p (setAt p x t) = some x := by
  induction p generalizing t with
  | nil => simp [getAt?, setAt]
  | cons i p ih =>
      cases t with
      | text s => simp [getAt?] at h
      | elem e tg cl ats cs =>
          cases hc : cs[i]? with
          | none => simp [getAt?, hc] at h
          | some c =>
              simp only [getAt?, hc] at h
              have hlt : i < cs.length := (List.getElem?_eq_some_iff.mp hc).1
              simp only [setAt, hc, getAt?]
              rw [List.getElem?_set_self hlt]
              exact ih c h

theorem getAt?_setAt_of_disjoint (p q : List Nat) (x t : Node)
    (hpq : pathLE p q = false) (hqp : pathLE q p = false) :
    getAt? q (setAt p x t) = getAt? q t := by
  induction q generalizing p t with
  | nil =>
      cases p with
      | nil => simp [pathLE] at hpq
      | cons i p' => simp [pathLE] at hqp
  | cons j q ih =>
      cases p with
      | nil => simp [pathLE] at hpq
      | cons i p' =>
          cases t with
          | text s => simp [setAt]
          | elem e tg cl ats cs =>
              by_cases hij : i = j
              · subst hij
                simp only [pathLE, beq_self_eq_true, Bool.true_and] at hpq hqp
                cases hc : cs[i]? with
                | none => simp [setAt, hc]
                | some c =>
                    have hlt : i < cs.length := (List.getElem?_eq_some_iff.mp hc).1
                    simp only [setAt, hc, getAt?]
                    rw [List.getElem?_set_self hlt]
                    exact ih p' c hpq hqp
              · cases hc : cs[i]? with
                | none => simp [setAt, hc]
                | some c =>
                    simp only [setAt, hc, getAt?]
                    rw [List.getElem?_set_ne hij]

theorem nodeData_getAt?_setAt_above (q : List Nat) :
    ∀ (p : List Nat) (x t : Node), pathLE q p = true → q ≠ p →
    Option.map nodeData (getAt? q (setAt p x t)) =
      Option.map nodeData (getAt? q t) := by
  induction q with
  | nil =>
      intro p x t _ hne
      cases p with
      | nil => exact absurd rfl hne
      | cons i p' =>
          cases t with
          | text s => simp [setAt]
          | elem e tg cl ats cs =>
              cases hc : cs[i]? with
              | none => simp [setAt, hc]
              | some c =>
                  simp [setAt, hc, getAt?, nodeData, eidN, tagN, classesN, attrsN, isElemN]
  | cons j q ih =>
      intro p x t hq hne
      cases p with
      | nil => simp [pathLE] at hq
      | cons i p' =>
          simp only [pathLE, Bool.and_eq_true, beq_iff_eq] at hq
          obtain ⟨rfl, hq'⟩ := hq
          cases t with
          | text s => simp [setAt]
          | elem e tg cl ats cs =>
              cases hc : cs[j]? with
              | none => simp [setAt, hc]
              | some c =>
                  have hlt : j < cs.length := (List.getElem?_eq_some_iff.mp hc).1
                  simp only [setAt, hc, getAt?]
                  rw [List.getElem?_set_self hlt]
                  exact ih p' x c hq' (fun h => hne (by rw [h]))

theorem ctxAt_setAt (q : List Nat) :
    ∀ (p : List Nat) (acc : Ctx) (x t : Node), pathLE p q = false →
    ctxAt q acc (setAt p x t) = ctxAt q acc t := by
  induction q with
  | nil => intro p acc x t _; simp [ctxAt]
  | cons j q ih =>
      intro p acc x t hpq
      cases p with
      | nil => simp [pathLE] at hpq
      | cons i p' =>
          cases t with
          | text s => simp [setAt]
          | elem e tg cl ats cs =>
              by_cases hij : i = j
              · subst hij
                simp only [pathLE, beq_self_eq_true, Bool.true_and] at hpq
                cases hc : cs[i]? with
                | none => simp [setAt, hc]
                | some c =>
                    have hlt : i < cs.length := (List.getElem?_eq_some_iff.mp hc).1
                    simp only [setAt, hc, ctxAt]
                    rw [List.getElem?_set_self hlt]
                    exact ih p' (pushCtx acc cl) x c hpq
              · cases hc : cs[i]? with
                | none => simp [setAt, hc]
                | some c =>
                    simp only [setAt, hc, ctxAt]
                    rw [List.getElem?_set_ne hij]

theorem ctxAt_underWrapper_mono (q : List Nat) :
    ∀ (acc : Ctx) (t : Node), acc.underWrapper = true →
    (ctxAt q acc t).underWrapper = true := by
  induction q with
  | nil => intro acc t h; simpa [ctxAt] using h
  | cons j q ih =>
      intro acc t h
      cases t with
      | text s => simpa [ctxAt] using h
      | elem e tg cl ats cs =>
          simp only [ctxAt]
          cases hc : cs[j]? with
          | none => simpa using h
          | some c =>
              refine ih (pushCtx acc cl) c ?_
              simp [pushCtx, h]

theorem ctxAt_append_underWrapper (p : List Nat) :
    ∀ (r : List Nat) (acc : Ctx) (t x : Node), getAt? p t = some x →
    hasClassB x "message-wrapper" = true → r ≠ [] →
    (getAt? (p ++ r) t).isSome →
    (ctxAt (p ++ r) acc t).underWrapper = true := by
  induction p with
  | nil =>
      intro r acc t x hx hcl hr hv
      simp only [getAt?] at hx
      cases hx
      cases r with
      | nil => exact absurd rfl hr
      | cons j r' =>
          cases t with
          | text s => simp [hasClassB, classesN] at hcl
          | elem e tg cl ats cs =>
              simp only [List.nil_append, ctxAt]
              simp only [List.nil_append, getAt?] at hv
              cases hc : cs[j]? with
              | none => rw [hc] at hv; simp at hv
              | some c =>
                  refine ctxAt_underWrapper_mono r' (pushCtx acc cl) c ?_
                  simp only [hasClassB, classesN] at hcl
                  simp only [pushCtx, Bool.or_eq_true]
                  exact Or.inr hcl
  | cons i p' ih =>
      intro r acc t x hx hcl hr hv
      cases t with
      | text s => simp [getAt?] at hx
      | elem e tg cl ats cs =>
          simp only [getAt?] at hx
          cases hc : cs[i]? with
          | none => rw [hc] at hx; simp at hx
          | some c =>
              rw [hc] at hx
              simp only at hx
              simp only [List.cons_append, ctxAt, getAt?, hc] at hv ⊢
              exact ih r (pushCtx acc cl) c x hx hcl hr hv

/-! ### Subtree decomposition: text content, ids, structural tags -/

theorem textContentL_split (cs : List Node) :
    ∀ (i : Nat) (c : Node), cs[i]? = some c →
    ∃ u v, textContentL cs = u ++ textContentOf c ++ v ∧
      ∀ c', textContentL (cs.set i c') = u ++ textContentOf c' ++ v := by
  induction cs with
  | nil => intro i c h; simp at h
  | cons a rest ih =>
      intro i c h
      cases i with
      | zero =>
          simp only [List.getElem?_cons_zero, Option.some_inj] at h
          subst h
          exact ⟨[], textContentL rest, by simp [textContentL],
            fun c' => by simp [List.set, textContentL]⟩
      | succ n =>
          simp only [List.getElem?_cons_succ] at h
          obtain ⟨u, v, h1, h2⟩ := ih n c h
          refine ⟨textContentOf a ++ u, v, ?_, ?_⟩
          · simp [textContentL, h1]
          · intro c'
            simp [List.set, textContentL, h2 c']

theorem textContent_setAt (p : List Nat) :
    ∀ (t m : Node), getAt? p t = some m →
    ∃ u v, textContentOf t = u ++ textContentOf m ++ v ∧
      ∀ x, textContentOf (setAt p x t) = u ++ textContentOf x ++ v := by
  induction p with
  | nil =>
      intro t m h
      simp only [getAt?, Option.some_inj] at h
      subst h
      exact ⟨[], [], by simp, fun x => by simp [setAt]⟩
  | cons i p ih =>
      intro t m h
      cases t with
      | text s => simp [getAt?] at h
      | elem e tg cl ats cs =>
          cases hc : cs[i]? with
          | none => simp [getAt?, hc] at h
          | some c =>
              simp only [getAt?, hc] at h
              obtain ⟨u1, v1, hu1, hs1⟩ := textContentL_split cs i c hc
              obtain ⟨u2, v2, hu2, hs2⟩ := ih c m h
              refine ⟨u1 ++ u2, v2 ++ v1, ?_, ?_⟩
              · simp [textContentOf, hu1, hu2]
              · intro x
                simp [setAt, hc, textContentOf, hs1 (setAt p x c), hs2 x]

theorem allIdsL_split (cs : List Node) :
    ∀ (i : Nat) (c : Node), cs[i]? = some c →
    ∃ u v, allIdsL cs = u ++ allIds c ++ v ∧
      ∀ c', allIdsL (cs.set i c') = u ++ allIds c' ++ v := by
  induction cs with
  | nil => intro i c h; simp at h
  | cons a rest ih =>
      intro i c h
      cases i with
      | zero =>
          simp only [List.getElem?_cons_zero, Option.some_inj] at h
          subst h
          exact ⟨[], allIdsL rest, by simp [allIdsL],
            fun c' => by simp [List.set, allIdsL]⟩
      | succ n =>
          simp only [List.getElem?_cons_succ] at h
          obtain ⟨u, v, h1, h2⟩ := ih n c h
          refine ⟨allIds a ++ u, v, ?_, ?_⟩
          · simp [allIdsL, h1]
          · intro c'
            simp [List.set, allIdsL, h2 c']

theorem allIds_setAt (p : List Nat) :
    ∀ (t m : Node), getAt? p t = some m →
    ∃ u v, allIds t = u ++ allIds m ++ v ∧
      ∀ x, allIds (setAt p x t) = u ++ allIds x ++ v := by
  induction p with
  | nil =>
      intro t m h
      simp only [getAt?, Option.some_inj] at h
      subst h
      exact ⟨[], [], by simp, fun x => by simp [setAt]⟩
  | cons i p ih =>
      intro t m h
      cases t with
      | text s => simp [getAt?] at h
      | elem e tg cl ats cs =>
          cases hc : cs[i]? with
          | none => simp [getAt?, hc] at h
          | some c =>
              simp only [getAt?, hc] at h
              obtain ⟨u1, v1, hu1, hs1⟩ := allIdsL_split cs i c hc
              obtain ⟨u2, v2, hu2, hs2⟩ := ih c m h
              refine ⟨e :: (u1 ++ u2), v2 ++ v1, ?_, ?_⟩
              · simp [allIds, hu1, hu2]
              · intro x
                simp [setAt, hc, allIds, hs1 (setAt p x c), hs2 x]

theorem structL_of_child (cs : List Node) :
    ∀ (i : Nat) (c : Node), cs[i]? = some c → structIncl c = true →
    structL cs = true := by
  induction cs with
  | nil => intro i c h; simp at h
  | cons a rest ih =>
      intro i c h hs
      cases i with
      | zero =>
          simp only [List.getElem?_cons_zero, Option.some_inj] at h
          subst h
          simp [structL, hs]
      | succ n =>
          simp only [List.getElem?_cons_succ] at h
          simp [structL, ih n c h hs]

theorem structIncl_of_getAt? (p : List Nat) :
    ∀ (t m : Node), getAt? p t = some m → structIncl m = true →
    structIncl t = true := by
  induction p with
  | nil =>
      intro t m h hm
      simp only [getAt?, Option.some_inj] at h
      exact h ▸ hm
  | cons i p ih =>
      intro t m h hm
      cases t with
      | text s => simp [getAt?] at h
      | elem e tg cl ats cs =>
          cases hc : cs[i]? with
          | none => simp [getAt?, hc] at h
          | some c =>
              simp only [getAt?, hc] at h
              simp [structIncl, structL_of_child cs i c hc (ih c m h hm)]

theorem hasStructB_of_below (p : List Nat) (t m : Node) (hp : p ≠ [])
    (h : getAt? p t = some m) (hm : structIncl m = true) :
    hasStructB t = true := by
  cases p with
  | nil => exact absurd rfl hp
  | cons i p' =>
      cases t with
      | text s => simp [getAt?] at h
      | elem e tg cl ats cs =>
          cases hc : cs[i]? with
          | none => simp [getAt?, hc] at h
          | some c =>
              simp only [getAt?, hc] at h
              simp only [hasStructB, childrenN]
              exact structL_of_child cs i c hc (structIncl_of_getAt? p' c m h hm)

theorem structIncl_of_hasStructB (n : Node) (h : hasStructB n = true) :
    structIncl n = true := by
  cases n with
  | text s => simp [hasStructB, childrenN, structL] at h
  | elem e tg cl ats cs =>
      simp only [hasStructB, childrenN] at h
      simp [structIncl, h]

/-! ### Trimmed length is monotone under enclosing content -/

theorem dropWhile_ws_head (l : List Char) :
    ∀ (c : Char) (rest : List Char), l.dropWhile isWsChar = c :: rest →
    isWsChar c = false := by
  induction l with
  | nil => intro c rest h; simp at h
  | cons a l ih =>
      intro c rest h
      by_cases ha : isWsChar a = true
      · rw [List.dropWhile_cons_of_pos ha] at h
        exact ih c rest h
      · rw [List.dropWhile_cons_of_neg ha] at h
        injection h with h1 _
        subst h1
        exact Bool.eq_false_iff.mpr ha

theorem trimLeftC_suffix (l : List Char) : ∃ u, l = u ++ trimLeftC l := by
  obtain ⟨u, hu⟩ := List.dropWhile_suffix (l := l) isWsChar
  exact ⟨u, hu.symm⟩

theorem trimRightC_decomp (l : List Char) : ∃ v, l = trimRightC l ++ v := by
  obtain ⟨u, hu⟩ := List.dropWhile_suffix (l := l.reverse) isWsChar
  refine ⟨u.reverse, ?_⟩
  have h2 := congrArg List.reverse hu
  simp only [List.reverse_append, List.reverse_reverse] at h2
  rw [trimRightC]
  exact h2.symm

theorem trimC_parts (l : List Char) : ∃ u v, l = u ++ trimC l ++ v := by
  obtain ⟨u, hu⟩ := trimLeftC_suffix l
  obtain ⟨v, hv⟩ := trimRightC_decomp (trimLeftC l)
  refine ⟨u, v, ?_⟩
  rw [trimC, List.append_assoc, ← hv]
  exact hu

theorem trimC_head (l : List Char) (c : Char) (rest : List Char)
    (h : trimC l = c :: rest) : isWsChar c = false := by
  obtain ⟨v, hv⟩ := trimRightC_decomp (trimLeftC l)
  rw [← trimC] at hv
  refine dropWhile_ws_head l c (rest ++ v) ?_
  have h2 : trimLeftC l = c :: (rest ++ v) := by
    rw [hv, h]; simp
  simpa [trimLeftC] using h2

theorem trimC_last (l : List Char) (w : List Char) (c : Char)
    (h : trimC l = w ++ [c]) : isWsChar c = false := by
  have h2 : (trimLeftC l).reverse.dropWhile isWsChar = c :: w.reverse := by
    have h3 := congrArg List.reverse h
    simp only [trimC, trimRightC, List.reverse_reverse, List.reverse_append,
      List.reverse_cons, List.reverse_nil, List.nil_append,
      List.singleton_append] at h3
    exact h3
  exact dropWhile_ws_head _ c w.reverse h2

theorem dropWhile_ws_through (a : List Char) :
    ∀ (c0 : Char) (xr b : List Char), isWsChar c0 = false →
    ∃ a', (a ++ (c0 :: xr) ++ b).dropWhile isWsChar = a' ++ (c0 :: xr) ++ b := by
  induction a with
  | nil =>
      intro c0 xr b h
      refine ⟨[], ?_⟩
      simp only [List.nil_append, List.cons_append]
      rw [List.dropWhile_cons_of_neg (by simp [h])]
  | cons d a ih =>
      intro c0 xr b h
      by_cases hd : isWsChar d = true
      · obtain ⟨a', ha'⟩ := ih c0 xr b h
        refine ⟨a', ?_⟩
        simpa [List.dropWhile_cons_of_pos hd] using ha'
      · refine ⟨d :: a, ?_⟩
        simp only [List.cons_append]
        rw [List.dropWhile_cons_of_neg hd]

theorem trimC_length_le (u X v : List Char) :
    (trimC X).length ≤ (trimC (u ++ X ++ v)).length := by
  cases hy : trimC X with
  | nil => simp
  | cons c0 yr =>
      have hhead : isWsChar c0 = false := trimC_head X c0 yr hy
      rcases List.eq_nil_or_concat' (c0 :: yr) with hn | ⟨w, clast, hwc⟩
      · simp at hn
      have hlast : isWsChar clast = false := trimC_last X w clast (by rw [hy, hwc])
      obtain ⟨u1, v1, hX⟩ := trimC_parts X
      rw [hy] at hX
      have hW : u ++ X ++ v = (u ++ u1) ++ (c0 :: yr) ++ (v1 ++ v) := by
        rw [hX]; simp [List.append_assoc]
      obtain ⟨a', hA⟩ := dropWhile_ws_through (u ++ u1) c0 yr (v1 ++ v) hhead
      have hyrev : (c0 :: yr).reverse = clast :: w.reverse := by rw [hwc]; simp
      obtain ⟨b', hB⟩ :=
        dropWhile_ws_through ((v1 ++ v).reverse) clast w.reverse a'.reverse hlast
      have hrev : (a' ++ (c0 :: yr) ++ (v1 ++ v)).reverse =
          (v1 ++ v).reverse ++ (clast :: w.reverse) ++ a'.reverse := by
        simp only [List.reverse_append, List.append_assoc]
        rw [hyrev]
      have hfin : trimC (u ++ X ++ v) =
          (b' ++ (clast :: w.reverse) ++ a'.reverse).reverse := by
        rw [trimC, trimRightC]
        rw [show trimLeftC (u ++ X ++ v) = a' ++ (c0 :: yr) ++ (v1 ++ v) from by
          rw [trimLeftC, hW]; exact hA]
        rw [hrev, hB]
      rw [hfin]
      have hlen := congrArg List.length hwc
      simp only [List.length_cons, List.length_append, List.length_reverse,
        List.length_nil] at hlen ⊢
      omega

theorem trimmedLen_le_subtree (p : List Nat) (t m : Node)
    (h : getAt? p t = some m) : trimmedLen m ≤ trimmedLen t := by
  obtain ⟨u, v, hu, _⟩ := textContent_setAt p t m h
  unfold trimmedLen
  rw [hu]
  exact trimC_length_le u (textContentOf m) v

/-! ### Lookup by element id: soundness, completeness, uniqueness -/

mutual

theorem findPath_sound : ∀ (mid : Nat) (t : Node) (p : List Nat),
    findPath mid t = some p →
    ∃ n, getAt? p t = some n ∧ isElemN n = true ∧ eidN n = mid
  | mid, .text s, p, h => by simp [findPath] at h
  | mid, .elem i tg cl ats cs, p, h => by
      rw [findPath] at h
      by_cases hi : (i == mid) = true
      · rw [if_pos hi] at h
        injection h with h1
        subst h1
        exact ⟨.elem i tg cl ats cs, by simp [getAt?], by simp [isElemN],
          by simpa [eidN] using hi⟩
      · rw [if_neg hi] at h
        obtain ⟨j, c, p', hq, hc, hn⟩ := findPathL_sound mid 0 cs p h
        obtain ⟨n, hg, he, hid⟩ := hn
        subst hq
        refine ⟨n, ?_, he, hid⟩
        simpa [getAt?, hc] using hg

theorem findPathL_sound : ∀ (mid k : Nat) (cs : List Node) (q : List Nat),
    findPathL mid k cs = some q →
    ∃ j c p, q = (k + j) :: p ∧ cs[j]? = some c ∧
      ∃ n, getAt? p c = some n ∧ isElemN n = true ∧ eidN n = mid
  | mid, k, [], q, h => by simp [findPathL] at h
  | mid, k, c0 :: rest, q, h => by
      rw [findPathL] at h
      cases hf : findPath mid c0 with
      | some p0 =>
          rw [hf] at h
          injection h with h1
          obtain ⟨n, hg, he, hid⟩ := findPath_sound mid c0 p0 hf
          exact ⟨0, c0, p0, by rw [← h1]; simp, by simp, n, hg, he, hid⟩
      | none =>
          rw [hf] at h
          obtain ⟨j, c', p', hq, hc, hn⟩ := findPathL_sound mid (k + 1) rest q h
          refine ⟨j + 1, c', p', ?_, by simpa using hc, hn⟩
          rw [hq]
          congr 1
          omega

end

theorem findPathL_isSome_of_child (mid : Nat) :
    ∀ (cs : List Node) (k j : Nat) (c : Node), cs[j]? = some c →
    (findPath mid c).isSome = true → (findPathL mid k cs).isSome = true := by
  intro cs
  induction cs with
  | nil => intro k j c hc; simp at hc
  | cons c0 rest ih =>
      intro k j c hc hf
      rw [findPathL]
      cases hf0 : findPath mid c0 with
      | some p0 => simp
      | none =>
          cases j with
          | zero =>
              simp only [List.getElem?_cons_zero, Option.some_inj] at hc
              subst hc
              rw [hf0] at hf
              simp at hf
          | succ j' =>
              simp only [List.getElem?_cons_succ] at hc
              exact ih (k + 1) j' c hc hf

theorem findPath_complete : ∀ (p : List Nat) (t n : Node) (mid : Nat),
    getAt? p t = some n → isElemN n = true → eidN n = mid →
    (findPath mid t).isSome = true := by
  intro p
  induction p with
  | nil =>
      intro t n mid hg hi he
      simp only [getAt?, Option.some_inj] at hg
      subst hg
      cases t with
      | text s => simp [isElemN] at hi
      | elem i tg cl ats cs =>
          simp only [eidN] at he
          rw [findPath, if_pos (by simp [he])]
          simp
  | cons j p' ih =>
      intro t n mid hg hi he
      cases t with
      | text s => simp [getAt?] at hg
      | elem i tg cl ats cs =>
          cases hc : cs[j]? with
          | none => simp [getAt?, hc] at hg
          | some c =>
              simp only [getAt?, hc] at hg
              rw [findPath]
              by_cases hi2 : (i == mid) = true
              · rw [if_pos hi2]; simp
              · rw [if_neg hi2]
                exact findPathL_isSome_of_child mid cs 0 j c hc (ih c n mid hg hi he)

theorem mem_allIdsL_of_child :
    ∀ (cs : List Node) (j : Nat) (c : Node) (x : Nat), cs[j]? = some c →
    x ∈ allIds c → x ∈ allIdsL cs := by
  intro cs
  induction cs with
  | nil => intro j c x hc; simp at hc
  | cons c0 rest ih =>
      intro j c x hc hx
      cases j with
      | zero =>
          simp only [List.getElem?_cons_zero, Option.some_inj] at hc
          subst hc
          exact List.mem_append.mpr (Or.inl hx)
      | succ j' =>
          simp only [List.getElem?_cons_succ] at hc
          exact List.mem_append.mpr (Or.inr (ih j' c x hc hx))

theorem eid_mem_allIds : ∀ (p : List Nat) (t n : Node),
    getAt? p t = some n → isElemN n = true → eidN n ∈ allIds t := by
  intro p
  induction p with
  | nil =>
      intro t n hg hi
      simp only [getAt?, Option.some_inj] at hg
      subst hg
      cases t with
      | text s => simp [isElemN] at hi
      | elem i tg cl ats cs => simp [allIds, eidN]
  | cons j p' ih =>
      intro t n hg hi
      cases t with
      | text s => simp [getAt?] at hg
      | elem i tg cl ats cs =>
          cases hc : cs[j]? with
          | none => simp [getAt?, hc] at hg
          | some c =>
              simp only [getAt?, hc] at hg
              rw [allIds]
              exact List.mem_cons_of_mem i
                (mem_allIdsL_of_child cs j c (eidN n) hc (ih c n hg hi))

theorem allIds_child_nodup :
    ∀ (cs : List Node) (j : Nat) (c : Node), (allIdsL cs).Nodup →
    cs[j]? = some c → (allIds c).Nodup := by
  intro cs
  induction cs with
  | nil => intro j c _ hc; simp at hc
  | cons c0 rest ih =>
      intro j c hnd hc
      rw [allIdsL] at hnd
      rw [List.nodup_append] at hnd
      cases j with
      | zero =>
          simp only [List.getElem?_cons_zero, Option.some_inj] at hc
          subst hc
          exact hnd.1
      | succ j' =>
          simp only [List.getElem?_cons_succ] at hc
          exact ih j' c hnd.2.1 hc

theorem allIdsL_child_disjoint :
    ∀ (cs : List Node) (j j' : Nat) (c c' : Node) (x : Nat), (allIdsL cs).Nodup →
    j ≠ j' → cs[j]? = some c → cs[j']? = some c' →
    x ∈ allIds c → x ∈ allIds c' → False := by
  intro cs
  induction cs with
  | nil => intro j j' c c' x _ _ hc; simp at hc
  | cons c0 rest ih =>
      intro j j' c c' x hnd hne hc hc' hx hx'
      rw [allIdsL] at hnd
      rw [List.nodup_append] at hnd
      cases j with
      | zero =>
          simp only [List.getElem?_cons_zero, Option.some_inj] at hc
          subst hc
          cases j' with
          | zero => exact hne rfl
          | succ k' =>
              simp only [List.getElem?_cons_succ] at hc'
              exact hnd.2.2 hx (mem_allIdsL_of_child rest k' c' x hc' hx')
      | succ k =>
          simp only [List.getElem?_cons_succ] at hc
          cases j' with
          | zero =>
              simp only [List.getElem?_cons_zero, Option.some_inj] at hc'
              subst hc'
              exact hnd.2.2 hx' (mem_allIdsL_of_child rest k c x hc hx)
          | succ k' =>
              simp only [List.getElem?_cons_succ] at hc'
              exact ih k k' c c' x hnd.2.1 (by omega) hc hc' hx hx'

theorem getAt?_eid_unique : ∀ (p : List Nat) (t : Node) (q : List Nat) (n n' : Node),
    (allIds t).Nodup → getAt? p t = some n → getAt? q t = some n' →
    isElemN n = true → isElemN n' = true → eidN n = eidN n' → p = q := by
  intro p
  induction p with
  | nil =>
      intro t q n n' hnd hg hg' hi hi' he
      simp only [getAt?, Option.some_inj] at hg
      subst hg
      cases q with
      | nil => rfl
      | cons j q' =>
          cases t with
          | text s => simp [isElemN] at hi
          | elem i tg cl ats cs =>
              cases hc : cs[j]? with
              | none => simp [getAt?, hc] at hg'
              | some c =>
                  simp only [getAt?, hc] at hg'
                  have hmem : eidN n' ∈ allIdsL cs :=
                    mem_allIdsL_of_child cs j c (eidN n') hc
                      (eid_mem_allIds q' c n' hg' hi')
                  rw [allIds, List.nodup_cons] at hnd
                  rw [eidN] at he
                  exact absurd (he ▸ hmem) hnd.1
  | cons i0 p' ih =>
      intro t q n n' hnd hg hg' hi hi' he
      cases t with
      | text s => simp [getAt?] at hg
      | elem e tg cl ats cs =>
          cases hc : cs[i0]? with
          | none => simp [getAt?, hc] at hg
          | some c =>
              simp only [getAt?, hc] at hg
              cases q with
              | nil =>
                  simp only [getAt?, Option.some_inj] at hg'
                  subst hg'
                  have hmem : eidN n ∈ allIdsL cs :=
                    mem_allIdsL_of_child cs i0 c (eidN n) hc
                      (eid_mem_allIds p' c n hg hi)
                  rw [allIds, List.nodup_cons] at hnd
                  rw [eidN] at he
                  exact absurd (he ▸ hmem) hnd.1
              | cons j0 q' =>
                  cases hc' : cs[j0]? with
                  | none => simp [getAt?, hc'] at hg'
                  | some c' =>
                      simp only [getAt?, hc'] at hg'
                      by_cases hij : i0 = j0
                      · subst hij
                        rw [hc] at hc'
                        injection hc' with hcc
                        subst hcc
                        rw [allIds, List.nodup_cons] at hnd
                        rw [ih c q' n n' (allIds_child_nodup cs i0 c hnd.2 hc)
                          hg hg' hi hi' he]
                      · rw [allIds, List.nodup_cons] at hnd
                        exact absurd
                          (allIdsL_child_disjoint cs i0 j0 c c' (eidN n) hnd.2 hij hc hc'
                            (eid_mem_allIds p' c n hg hi)
                            (he ▸ eid_mem_allIds q' c' n' hg' hi'))
                          (fun h => h)

theorem findPath_eq_of_getAt? (t : Node) (p : List Nat) (n : Node)
    (hnd : (allIds t).Nodup) (hg : getAt? p t = some n) (hi : isElemN n = true) :
    findPath (eidN n) t = some p := by
  have hs := findPath_complete p t n (eidN n) hg hi rfl
  obtain ⟨q, hq⟩ := Option.isSome_iff_exists.mp hs
  obtain ⟨n', hg', hi', he'⟩ := findPath_sound (eidN n) t q hq
  have hpq := getAt?_eid_unique p t q n n' hnd hg hg' hi hi' (by rw [he'])
  rw [hq, hpq]

/-! ### Candidate collection: soundness and completeness -/

theorem mem_collectL_of_child (s : Node → Bool) :
    ∀ (cs : List Node) (j : Nat) (c : Node) (x : Nat), cs[j]? = some c →
    x ∈ collectS s c → x ∈ collectL s cs := by
  intro cs
  induction cs with
  | nil => intro j c x hc; simp at hc
  | cons c0 rest ih =>
      intro j c x hc hx
      cases j with
      | zero =>
          simp only [List.getElem?_cons_zero, Option.some_inj] at hc
          subst hc
          exact List.mem_append.mpr (Or.inl hx)
      | succ j' =>
          simp only [List.getElem?_cons_succ] at hc
          exact List.mem_append.mpr (Or.inr (ih j' c x hc hx))

theorem collectS_complete (s : Node → Bool) : ∀ (p : List Nat) (t n : Node),
    getAt? p t = some n → s n = true → isElemN n = true → eidN n ∈ collectS s t := by
  intro p
  induction p with
  | nil =>
      intro t n hg hs hi
      simp only [getAt?, Option.some_inj] at hg
      subst hg
      cases t with
      | text str => simp [isElemN] at hi
      | elem i tg cl ats cs =>
          rw [collectS, if_pos hs]
          simp [eidN]
  | cons j p' ih =>
      intro t n hg hs hi
      cases t with
      | text str => simp [getAt?] at hg
      | elem i tg cl ats cs =>
          cases hc : cs[j]? with
          | none => simp [getAt?, hc] at hg
          | some c =>
              simp only [getAt?, hc] at hg
              rw [collectS]
              exact List.mem_append.mpr
                (Or.inr (mem_collectL_of_child s cs j c (eidN n) hc (ih c n hg hs hi)))

mutual

theorem collectS_sound : ∀ (s : Node → Bool) (t : Node) (x : Nat),
    x ∈ collectS s t →
    ∃ p n, getAt? p t = some n ∧ s n = true ∧ eidN n = x ∧ isElemN n = true
  | s, .text str, x, h => by simp [collectS] at h
  | s, .elem i tg cl ats cs, x, h => by
      rw [collectS] at h
      rcases List.mem_append.mp h with h1 | h2
      · by_cases hs : s (.elem i tg cl ats cs) = true
        · rw [if_pos hs] at h1
          simp only [List.mem_singleton] at h1
          subst h1
          exact ⟨[], .elem x tg cl ats cs, by simp [getAt?], hs, rfl, by simp [isElemN]⟩
        · rw [if_neg hs] at h1
          simp at h1
      · obtain ⟨j, c, hc, p, n, hg, hs, he, hi⟩ := collectL_sound s cs x h2
        exact ⟨j :: p, n, by simpa [getAt?, hc] using hg, hs, he, hi⟩

theorem collectL_sound : ∀ (s : Node → Bool) (cs : List Node) (x : Nat),
    x ∈ collectL s cs →
    ∃ (j : Nat) (c : Node), cs[j]? = some c ∧
      ∃ p n, getAt? p c = some n ∧ s n = true ∧ eidN n = x ∧ isElemN n = true
  | s, [], x, h => by simp [collectL] at h
  | s, c0 :: rest, x, h => by
      rw [collectL] at h
      rcases List.mem_append.mp h with h1 | h2
      · obtain ⟨p, n, hg, hs, he, hi⟩ := collectS_sound s c0 x h1
        exact ⟨0, c0, by simp, p, n, hg, hs, he, hi⟩
      · obtain ⟨j, c, hc, rest'⟩ := collectL_sound s rest x h2
        exact ⟨j + 1, c, by simpa using hc, rest'⟩

end

theorem dedupFirst_mem : ∀ (l : List Nat) (x : Nat), x ∈ dedupFirst l ↔ x ∈ l := by
  intro l
  induction l using dedupFirst.induct with
  | case1 => intro x; simp [dedupFirst]
  | case2 a rest ih =>
      intro x
      rw [dedupFirst]
      simp only [List.mem_cons, ih x, List.mem_filter]
      constructor
      · rintro (rfl | ⟨hx, _⟩)
        · exact Or.inl rfl
        · exact Or.inr hx
      · rintro (rfl | hx)
        · exact Or.inl rfl
        · by_cases hxa : x = a
          · exact Or.inl hxa
          · exact Or.inr ⟨hx, by simpa using hxa⟩

theorem matchesAny_isElem (n : Node) (h : matchesAny n = true) : isElemN n = true := by
  cases n with
  | elem i tg cl ats cs => simp [isElemN]
  | text s =>
      simp [matchesAny, selList, sel1, sel2, sel3, sel4, sel5, sel6, sel7, sel8, sel9,
        isElemN, tagN] at h

theorem candidates_complete (t : Node) (p : List Nat) (n : Node)
    (hg : getAt? p t = some n) (hm : matchesAny n = true) : eidN n ∈ candidates t := by
  obtain ⟨s, hsmem, hs⟩ := List.any_eq_true.mp hm
  refine (dedupFirst_mem _ _).mpr (List.mem_flatten.mpr ⟨collectS s t, ?_, ?_⟩)
  · exact List.mem_map.mpr ⟨s, hsmem, rfl⟩
  · exact collectS_complete s p t n hg hs (matchesAny_isElem n hm)

theorem candidates_sound (t : Node) (x : Nat) (h : x ∈ candidates t) :
    ∃ p n, getAt? p t = some n ∧ matchesAny n = true ∧ eidN n = x ∧
      isElemN n = true := by
  obtain ⟨l, hl, hx⟩ := List.mem_flatten.mp ((dedupFirst_mem _ _).mp h)
  obtain ⟨s, hsmem, rfl⟩ := List.mem_map.mp hl
  obtain ⟨p, n, hg, hs, he, hi⟩ := collectS_sound s t x hx
  exact ⟨p, n, hg, List.any_eq_true.mpr ⟨s, hsmem, hs⟩, he, hi⟩

/-! ### Unfolding the transform and the per-candidate step -/

theorem addToggle_none (st : St) (mid : Nat) (hf : findPath mid st.tree = none) :
    addToggleToMessage st mid = st := by
  rw [addToggleToMessage, hf]

theorem addToggle_root (st : St) (mid : Nat) (hf : findPath mid st.tree = some []) :
    addToggleToMessage st mid = st := by
  simp only [addToggleToMessage, hf, getAt?]
  split
  · rfl
  · split
    · rfl
    · rfl

theorem addToggle_rejected (st : St) (mid : Nat) (p : List Nat) (m : Node)
    (hf : findPath mid st.tree = some p) (hg : getAt? p st.tree = some m)
    (h : ((ctxAt p initCtx st.tree).underWrapper || hasClassB m "message-wrapper") = true ∨
      trimmedLen m < 20) :
    addToggleToMessage st mid = st := by
  simp only [addToggleToMessage, hf, hg]
  rcases h with h | h
  · rw [if_pos h]
  · by_cases h1 : ((ctxAt p initCtx st.tree).underWrapper ||
        hasClassB m "message-wrapper") = true
    · rw [if_pos h1]
    · rw [if_neg h1, if_pos h]

theorem addToggle_wrap (st : St) (mid : Nat) (p : List Nat) (m : Node)
    (hf : findPath mid st.tree = some p) (hg : getAt? p st.tree = some m) (hp : p ≠ [])
    (hguard : ((ctxAt p initCtx st.tree).underWrapper ||
      hasClassB m "message-wrapper") = false)
    (hlen : 20 ≤ trimmedLen m) :
    addToggleToMessage st mid =
      ⟨setAt p (wrapElem st.ctr (ctxAt p initCtx st.tree) m) st.tree, st.ctr + 9⟩ := by
  simp only [addToggleToMessage, hf, hg]
  rw [if_neg (by simp [hguard]), if_neg (by omega)]
  cases p with
  | nil => exact absurd rfl hp
  | cons i p' => rfl

theorem processStep_none (st : St) (mid : Nat) (hf : findPath mid st.tree = none) :
    processStep st mid = st := by
  rw [processStep, hf]

theorem processStep_rejected (st : St) (mid : Nat) (p : List Nat) (m : Node)
    (hf : findPath mid st.tree = some p) (hg : getAt? p st.tree = some m)
    (h : ((ctxAt p initCtx st.tree).underWrapper || hasClassB m "message-wrapper") = true ∨
      trimmedLen m < 20 ∨
      (hasStructB m = false ∧ trimmedLen m ≤ 50)) :
    processStep st mid = st := by
  simp only [processStep, hf, hg]
  rcases h with h | h | ⟨h1, h2⟩
  · rw [if_pos h]
  · by_cases hg1 : ((ctxAt p initCtx st.tree).underWrapper ||
        hasClassB m "message-wrapper") = true
    · rw [if_pos hg1]
    · rw [if_neg hg1, if_pos h]
  · by_cases hg1 : ((ctxAt p initCtx st.tree).underWrapper ||
        hasClassB m "message-wrapper") = true
    · rw [if_pos hg1]
    · rw [if_neg hg1]
      by_cases hl : trimmedLen m < 20
      · rw [if_pos hl]
      · rw [if_neg hl, if_neg (by simp [h1]; omega)]

theorem processStep_root (st : St) (mid : Nat) (hf : findPath mid st.tree = some []) :
    processStep st mid = st := by
  simp only [processStep, hf, getAt?]
  split
  · rfl
  · split
    · rfl
    · split
      · exact addToggle_root st mid hf
      · rfl

theorem processStep_wrap (st : St) (mid : Nat) (p : List Nat) (m : Node)
    (hf : findPath mid st.tree = some p) (hg : getAt? p st.tree = some m) (hp : p ≠ [])
    (hguard : ((ctxAt p initCtx st.tree).underWrapper ||
      hasClassB m "message-wrapper") = false)
    (hlen : 20 ≤ trimmedLen m)
    (hfil : hasStructB m = true ∨ 50 < trimmedLen m) :
    processStep st mid =
      ⟨setAt p (wrapElem st.ctr (ctxAt p initCtx st.tree) m) st.tree, st.ctr + 9⟩ := by
  simp only [processStep, hf, hg]
  have hcond : (hasStructB m || decide (50 < trimmedLen m)) = true := by
    rcases hfil with h | h <;> simp [h]
  rw [if_neg (by simp [hguard]), if_neg (by omega), if_pos hcond]
  exact addToggle_wrap st mid p m hf hg hp hguard hlen

/-! ### Computation facts about the wrapped structure -/

theorem allIds_wrapElem (ctr : Nat) (ctx : Ctx) (m : Node) :
    allIds (wrapElem ctr ctx m) = ctr :: (ctr + 1) :: (ctr + 2) :: (ctr + 3) ::
      (ctr + 4) :: (ctr + 5) :: (ctr + 6) :: (ctr + 7) :: (ctr + 8) :: allIds m := by
  simp [wrapElem, allIds, allIdsL]

theorem getAt?_wrapElem_content (ctr : Nat) (ctx : Ctx) (m : Node) :
    getAt? [1, 1, 0] (wrapElem ctr ctx m) = some m := by
  simp [wrapElem, getAt?]

theorem wrapElem_hasWrapperClass (ctr : Nat) (ctx : Ctx) (m : Node) :
    hasClassB (wrapElem ctr ctx m) "message-wrapper" = true := by
  simp [wrapElem, hasClassB, classesN]

theorem getAt?_wrapElem_preview (ctr : Nat) (ctx : Ctx) (m : Node) :
    getAt? [1, 0] (wrapElem ctr ctx m) =
      some (.elem (ctr + 7) "div" ["message-preview"] []
        [.text (truncate150 (previewSrc ctx m))]) := by
  have hassembled : findRespL [Node.elem (ctr + 7) "div" ["message-preview"] [] [],
      Node.elem (ctr + 8) "div" ["message-content"] [] [m]] = findRespC m := by
    cases hm : findRespC m with
    | none => simp [findRespL, findRespC, attrIs, attrsN, hm]
    | some x => simp [findRespL, findRespC, attrIs, attrsN, hm]
  have hbridge : (if isUserB ctx m then trimC (textContentOf m)
      else match findRespL [Node.elem (ctr + 7) "div" ["message-preview"] [] [],
        Node.elem (ctr + 8) "div" ["message-content"] [] [m]] with
        | some el => trimC (textContentOf el)
        | none => []) = previewSrc ctx m := by
    rw [previewSrc]
    by_cases hu : isUserB ctx m = true
    · rw [if_pos hu, if_pos hu]
    · rw [if_neg hu, if_neg hu, hassembled, respTextC]
  simp only [wrapElem]
  rw [hbridge]
  simp [getAt?, truncate150]

/-! ### Well-formedness is preserved by wrapping -/

theorem nodup_insert_middle (u M v N : List Nat) (h : (u ++ M ++ v).Nodup)
    (hN : N.Nodup) (hd : ∀ x ∈ N, x ∉ u ++ M ++ v) : (u ++ (N ++ M) ++ v).Nodup := by
  have h1 : u ++ (N ++ M) ++ v = (u ++ N) ++ (M ++ v) := by simp [List.append_assoc]
  have h3 : (N ++ u) ++ (M ++ v) = N ++ (u ++ M ++ v) := by simp [List.append_assoc]
  have hperm : (u ++ (N ++ M) ++ v).Perm (N ++ (u ++ M ++ v)) := by
    rw [h1, ← h3]
    exact List.Perm.append_right _ List.perm_append_comm
  rw [List.Perm.nodup_iff hperm]
  refine List.nodup_append.mpr ⟨hN, h, ?_⟩
  intro x hx hx2
  exact hd x hx hx2

theorem WFst_wrap (st : St) (p : List Nat) (m : Node) (ctx : Ctx) (hwf : WFst st)
    (hg : getAt? p st.tree = some m) :
    WFst ⟨setAt p (wrapElem st.ctr ctx m) st.tree, st.ctr + 9⟩ := by
  obtain ⟨hnd, hbound⟩ := hwf
  obtain ⟨u, v, hu, hs⟩ := allIds_setAt p st.tree m hg
  have hset := hs (wrapElem st.ctr ctx m)
  rw [allIds_wrapElem] at hset
  have hshape : st.ctr :: (st.ctr + 1) :: (st.ctr + 2) :: (st.ctr + 3) ::
      (st.ctr + 4) :: (st.ctr + 5) :: (st.ctr + 6) :: (st.ctr + 7) ::
      (st.ctr + 8) :: allIds m =
      [st.ctr, st.ctr + 1, st.ctr + 2, st.ctr + 3, st.ctr + 4, st.ctr + 5,
        st.ctr + 6, st.ctr + 7, st.ctr + 8] ++ allIds m := by simp
  rw [hshape] at hset
  constructor
  · show (allIds (setAt p (wrapElem st.ctr ctx m) st.tree)).Nodup
    rw [hset]
    refine nodup_insert_middle u (allIds m) v _ (by rwa [hu] at hnd) ?_ ?_
    · simp
    · intro x hx
      rw [← hu]
      intro hmem
      have hb := hbound x hmem
      simp at hx
      omega
  · intro i hi
    show i < st.ctr + 9
    replace hi : i ∈ u ++ ([st.ctr, st.ctr + 1, st.ctr + 2, st.ctr + 3, st.ctr + 4,
      st.ctr + 5, st.ctr + 6, st.ctr + 7, st.ctr + 8] ++ allIds m) ++ v := by
      rw [← hset]
      exact hi
    rcases List.mem_append.mp hi with h1 | h2
    · rcases List.mem_append.mp h1 with h3 | h4
      · have hmem : i ∈ allIds st.tree := by
          rw [hu]
          exact List.mem_append.mpr (Or.inl (List.mem_append.mpr (Or.inl h3)))
        have := hbound i hmem
        omega
      · rcases List.mem_append.mp h4 with h5 | h6
        · simp at h5
          omega
        · have hmem : i ∈ allIds st.tree := by
            rw [hu]
            exact List.mem_append.mpr (Or.inl (List.mem_append.mpr (Or.inr h6)))
          have := hbound i hmem
          omega
    · have hmem : i ∈ allIds st.tree := by
        rw [hu]
        exact List.mem_append.mpr (Or.inr h2)
      have := hbound i hmem
      omega

namespace Sched

/-- Auxiliary: folding the observer callback adds the number of qualifying
batches to the running count. -/
theorem pendingAfter_aux (batches : List (List MutationRecord)) :
    ∀ n : Nat, batches.foldl observerCallback n =
      n + batches.countP (fun b => batchShouldProcess b) := by
  induction batches with
  | nil => intro n; simp
  | cons b rest ih =>
      intro n
      by_cases h : batchShouldProcess b
      · simp [List.foldl, observerCallback, h, ih, List.countP_cons]
        omega
      · simp [List.foldl, observerCallback, h, ih, List.countP_cons]

end Sched

/-- C1 counterexample: two mutation batches, each adding one element node,
arriving inside one delay window leave two scheduled scans pending, not one —
the observer callback schedules a new scan unconditionally, so triggers are
not coalesced. -/
theorem scheduler_not_coalescing_counterexample :
    Sched.pendingAfter [Sched.elementBatch, Sched.elementBatch] = 2 ∧
      Sched.pendingAfter [Sched.elementBatch, Sched.elementBatch] ≠ 1 := by
  constructor <;> decide

/-- C1 (amended): every mutation batch containing at least one added element
node schedules one additional scan after the fixed delay; K qualifying
batches inside one delay window leave K scheduled scans pending (no
coalescing), and batches adding no element node schedule none. -/
theorem scheduler_schedules_per_batch (batches : List (List Sched.MutationRecord)) :
    Sched.pendingAfter batches =
      batches.countP (fun b => Sched.batchShouldProcess b) := by
  simpa using Sched.pendingAfter_aux batches 0

namespace BtnIns

/-- Lemma: `firstSome` over the option chain is the left-to-right `Option.or`. -/
theorem firstSome_eq (d : BtnDoc) :
    firstSome [d.headerTag, d.headerClass, d.navEl, d.mainEl, some d.body] =
      some (claimTarget d) := by
  unfold claimTarget
  cases d.headerTag <;> cases d.headerClass <;> cases d.navEl <;> cases d.mainEl <;>
    simp [firstSome, Option.or]

end BtnIns

/-- C9: if an element with the fixed button id already exists, no second
button is inserted; otherwise the button is inserted into the first available
container in the preference order header (found by tag or by class-name
match), then navigation, then main, then document body. -/
theorem insertCollapseAllButton_spec (d : BtnIns.BtnDoc) :
    (d.btnExists = true → BtnIns.insertCollapseAllButton d = none) ∧
    (d.btnExists = false →
      ∃ pos, BtnIns.insertCollapseAllButton d = some (BtnIns.claimTarget d, pos)) := by
  constructor
  · intro h
    simp [BtnIns.insertCollapseAllButton, h]
  · intro h
    rw [BtnIns.insertCollapseAllButton]
    rw [BtnIns.firstSome_eq d]
    simp only [h, Bool.false_eq_true, if_false]
    by_cases hc : ((BtnIns.claimTarget d).tagName == "HEADER" ||
        (BtnIns.claimTarget d).tagName == "NAV") = true
    · exact ⟨.appended, by rw [if_pos hc]⟩
    · exact ⟨.prepended, by rw [if_neg hc]⟩

/-- C9 witness: a concrete page with no button yet, no header element but a
class-matched header, a nav and a body: the button lands in the class-matched
header. -/
theorem insertCollapseAllButton_spec_witness :
    (BtnIns.BtnDoc.mk false none (some ⟨"DIV"⟩) (some ⟨"NAV"⟩) none ⟨"BODY"⟩).btnExists = false ∧
    ∃ pos, BtnIns.insertCollapseAllButton
        (BtnIns.BtnDoc.mk false none (some ⟨"DIV"⟩) (some ⟨"NAV"⟩) none ⟨"BODY"⟩) =
      some (BtnIns.claimTarget
        (BtnIns.BtnDoc.mk false none (some ⟨"DIV"⟩) (some ⟨"NAV"⟩) none ⟨"BODY"⟩), pos) :=
  ⟨rfl, (insertCollapseAllButton_spec _).2 rfl⟩

namespace Toggle

/-- State invariant after `N` global toggles from an initial page. -/
theorem toggleAll_iter_invariant (p : Page) (N : Nat)
    (h0 : p.isAllCollapsed = false)
    (hw : ∀ w ∈ p.wrappers, w.contentCollapsed.isSome → w = initialWrapper) :
    (toggleAllMessages^[N] p).isAllCollapsed = decide (N % 2 = 1) ∧
    (∀ w ∈ (toggleAllMessages^[N] p).wrappers,
        w.contentCollapsed.isSome → w = forcedWrapper (decide (N % 2 = 1))) ∧
    (1 ≤ N → ∀ b, (toggleAllMessages^[N] p).button = some b →
        (∀ s, b.spanText = some s →
          s = (if N % 2 = 1 then "Expand All" else "Collapse All")) ∧
        (∀ s, b.svgTransform = some s →
          s = (if N % 2 = 1 then "rotate(-90deg)" else "rotate(0deg)"))) := by
  induction N with
  | zero =>
      refine ⟨by simpa using h0, ?_, by omega⟩
      intro w hw' hsome
      simpa [forcedWrapper, initialWrapper] using hw w hw' hsome
  | succ n ih =>
      obtain ⟨ihall, ihw, _⟩ := ih
      rw [Function.iterate_succ_apply']
      have hpar : ((n + 1) % 2 = 1) ↔ ¬ (n % 2 = 1) := by omega
      have hflip : (!decide (n % 2 = 1)) = decide ((n + 1) % 2 = 1) := by
        by_cases h : n % 2 = 1 <;> simp [h, hpar]
      refine ⟨?_, ?_, ?_⟩
      · simp [toggleAllMessages, ihall, hflip]
      · intro w hmem hsome
        simp only [toggleAllMessages, ihall, hflip] at hmem
        rcases List.mem_map.mp hmem with ⟨w', hw', rfl⟩
        cases hc : w'.contentCollapsed with
        | none => simp [applyAll, hc] at hsome
        | some b =>
            by_cases hN : (n + 1) % 2 = 1 <;>
              simp [applyAll, hc, forcedWrapper, hN]
      · intro _ b hb
        simp only [toggleAllMessages, ihall, hflip] at hb
        rcases Option.map_eq_some'.mp hb with ⟨b', _, rfl⟩
        constructor
        · intro s hs
          rcases Option.map_eq_some'.mp hs with ⟨s', _, rfl⟩
          by_cases hN : (n + 1) % 2 = 1 <;> simp [hN]
        · intro s hs
          rcases Option.map_eq_some'.mp hs with ⟨s', _, rfl⟩
          by_cases hN : (n + 1) % 2 = 1 <;> simp [hN]

end Toggle

/-- C4: starting from the initial aggregate state (not collapsed) with every
well-formed wrapper in its initial expanded state, after exactly `N`
activations of the global toggle every well-formed wrapper is collapsed when
`N` is odd and expanded when `N` is even (content marker, toggle marker and
`aria-expanded` all agreeing), and from the first activation on the button
label and icon orientation reflect the post-flip aggregate state. -/
theorem global_toggle_parity (p : Toggle.Page) (N : Nat)
    (h0 : p.isAllCollapsed = false)
    (hw : ∀ w ∈ p.wrappers, w.contentCollapsed.isSome → w = Toggle.initialWrapper) :
    (∀ w ∈ (Toggle.toggleAllMessages^[N] p).wrappers, w.contentCollapsed.isSome →
        w = (if N % 2 = 1 then ⟨some true, true, "false"⟩ else ⟨some false, false, "true"⟩)) ∧
    (1 ≤ N → ∀ b, (Toggle.toggleAllMessages^[N] p).button = some b →
        (∀ s, b.spanText = some s →
          s = (if N % 2 = 1 then "Expand All" else "Collapse All")) ∧
        (∀ s, b.svgTransform = some s →
          s = (if N % 2 = 1 then "rotate(-90deg)" else "rotate(0deg)"))) := by
  obtain ⟨_, h2, h3⟩ := Toggle.toggleAll_iter_invariant p N h0 hw
  refine ⟨?_, h3⟩
  intro w hmem hsome
  have := h2 w hmem hsome
  by_cases hN : N % 2 = 1 <;> simp [hN, Toggle.forcedWrapper] at this ⊢ <;> exact this

/-- C4 witness: one wrapper and a well-formed button, three activations:
everything is collapsed and the button announces the collapsed state. -/
theorem global_toggle_parity_witness :
    ((Toggle.Page.mk false [Toggle.initialWrapper]
        (some ⟨some "Collapse All", some "rotate(0deg)"⟩)).isAllCollapsed = false) ∧
    (∀ w ∈ (Toggle.Page.mk false [Toggle.initialWrapper]
        (some ⟨some "Collapse All", some "rotate(0deg)"⟩)).wrappers,
      w.contentCollapsed.isSome → w = Toggle.initialWrapper) ∧
    ((∀ w ∈ (Toggle.toggleAllMessages^[3] (Toggle.Page.mk false [Toggle.initialWrapper]
          (some ⟨some "Collapse All", some "rotate(0deg)"⟩))).wrappers,
        w.contentCollapsed.isSome →
        w = (if 3 % 2 = 1 then ⟨some true, true, "false"⟩ else ⟨some false, false, "true"⟩)) ∧
      (1 ≤ 3 → ∀ b, (Toggle.toggleAllMessages^[3] (Toggle.Page.mk false [Toggle.initialWrapper]
          (some ⟨some "Collapse All", some "rotate(0deg)"⟩))).button = some b →
        (∀ s, b.spanText = some s →
          s = (if 3 % 2 = 1 then "Expand All" else "Collapse All")) ∧
        (∀ s, b.svgTransform = some s →
          s = (if 3 % 2 = 1 then "rotate(-90deg)" else "rotate(0deg)")))) :=
  ⟨rfl, by decide, global_toggle_parity _ 3 rfl (by decide)⟩

namespace Toggle

/-- The individual handler always leaves a consistent wrapper behind. -/
theorem handleToggle_consistent (w : Wrapper) (h : consistent w) :
    consistent (handleToggle w) := by
  unfold handleToggle
  cases hc : w.contentCollapsed with
  | none => exact h
  | some b => cases b <;> intro c hc' <;> simp_all

/-- The global-toggle body always leaves a consistent wrapper behind. -/
theorem applyAll_consistent (c : Bool) (w : Wrapper) (h : consistent w) :
    consistent (applyAll c w) := by
  unfold applyAll
  cases hc : w.contentCollapsed with
  | none => exact h
  | some b => cases c <;> intro c' hc' <;> simp_all

/-- Applying `modifyAt` with a consistency-preserving function keeps every wrapper
consistent. -/
theorem modifyAt_consistent (f : Wrapper → Wrapper)
    (hf : ∀ w, consistent w → consistent (f w)) :
    ∀ (i : Nat) (ws : List Wrapper), (∀ w ∈ ws, consistent w) →
      ∀ w ∈ modifyAt i f ws, consistent w := by
  intro i ws
  induction ws generalizing i with
  | nil => intro _ w hmem; simp [modifyAt] at hmem
  | cons a rest ih =>
      intro hall w hmem
      cases i with
      | zero =>
          simp [modifyAt] at hmem
          rcases hmem with rfl | hmem
          · exact hf a (hall a (by simp))
          · exact hall w (by simp [hmem])
      | succ j =>
          simp [modifyAt] at hmem
          rcases hmem with rfl | hmem
          · exact hall w (by simp)
          · exact ih j (fun w' hw' => hall w' (by simp [hw'])) w hmem

/-- One interaction preserves page-wide consistency. -/
theorem step_consistent (p : Page) (op : Op)
    (h : ∀ w ∈ p.wrappers, consistent w) :
    ∀ w ∈ (step p op).wrappers, consistent w := by
  cases op with
  | individual i =>
      exact modifyAt_consistent handleToggle handleToggle_consistent i p.wrappers h
  | global =>
      intro w hmem
      simp only [step, toggleAllMessages] at hmem
      rcases List.mem_map.mp hmem with ⟨w', hw', rfl⟩
      exact applyAll_consistent _ w' (h w' hw')

end Toggle

/-- C5: from any page whose wrappers all satisfy the toggle/ARIA consistency
invariant (in particular a freshly built page, since a new wrapper starts
expanded with `aria-expanded="true"`), any sequence of individual-toggle and
global-toggle transitions preserves the invariant: the content region's
collapsed marker, the toggle control's collapsed marker and its
`aria-expanded` string agree, with `aria-expanded = "true"` exactly in the
expanded state. -/
theorem toggle_aria_consistency (p : Toggle.Page) (ops : List Toggle.Op)
    (h : ∀ w ∈ p.wrappers, Toggle.consistent w) :
    (∀ w ∈ (Toggle.run p ops).wrappers, Toggle.consistent w) ∧
    Toggle.consistent Toggle.initialWrapper ∧
    Toggle.initialWrapper.contentCollapsed = some false ∧
    Toggle.initialWrapper.ariaExpanded = "true" := by
  refine ⟨?_, by decide, rfl, rfl⟩
  induction ops generalizing p with
  | nil => exact h
  | cons op rest ih =>
      exact ih (Toggle.step p op) (Toggle.step_consistent p op h)

/-- C5 witness: a concrete page and interaction sequence. -/
theorem toggle_aria_consistency_witness :
    (∀ w ∈ (Toggle.Page.mk false [Toggle.initialWrapper, ⟨some true, true, "false"⟩]
        none).wrappers, Toggle.consistent w) ∧
    ((∀ w ∈ (Toggle.run (Toggle.Page.mk false
          [Toggle.initialWrapper, ⟨some true, true, "false"⟩] none)
          [Toggle.Op.individual 0, Toggle.Op.global, Toggle.Op.individual 1,
            Toggle.Op.global, Toggle.Op.individual 5]).wrappers, Toggle.consistent w) ∧
      Toggle.consistent Toggle.initialWrapper ∧
      Toggle.initialWrapper.contentCollapsed = some false ∧
      Toggle.initialWrapper.ariaExpanded = "true") :=
  ⟨by decide, toggle_aria_consistency _ _ (by decide)⟩

/-! ## Claims C3, C6, C7, C8, C10 -/

/-- C3: for a candidate element that is not already inside (or itself) a
wrapper and has a parent, the scan wraps it exactly when its trimmed text
length is at least 20 and it either contains a structural child
(`p, pre, code, ul, ol, h1, h2, h3, span`) or has trimmed text length over
50; and in the accepting case the whole effect is the in-place wrap. -/
theorem classifier_filter_spec (st : St) (mid : Nat) (p : List Nat) (m : Node)
    (hwf : WFst st) (hf : findPath mid st.tree = some p)
    (hg : getAt? p st.tree = some m) (hp : p ≠ [])
    (hguard : ((ctxAt p initCtx st.tree).underWrapper ||
      hasClassB m "message-wrapper") = false) :
    ((processStep st mid).tree ≠ st.tree ↔
      (20 ≤ trimmedLen m ∧ (hasStructB m = true ∨ 50 < trimmedLen m))) ∧
    ((20 ≤ trimmedLen m ∧ (hasStructB m = true ∨ 50 < trimmedLen m)) →
      processStep st mid =
        ⟨setAt p (wrapElem st.ctr (ctxAt p initCtx st.tree) m) st.tree,
          st.ctr + 9⟩) := by
  constructor
  · constructor
    · intro hne
      by_cases h20 : 20 ≤ trimmedLen m
      · by_cases hfil : hasStructB m = true ∨ 50 < trimmedLen m
        · exact ⟨h20, hfil⟩
        · exfalso
          apply hne
          have h1 : hasStructB m = false := by
            rcases Bool.eq_false_or_eq_true (hasStructB m) with h | h
            · exact absurd (Or.inl h) hfil
            · exact h
          have h2 : trimmedLen m ≤ 50 := by
            by_contra hgt
            exact hfil (Or.inr (by omega))
          rw [processStep_rejected st mid p m hf hg (Or.inr (Or.inr ⟨h1, h2⟩))]
      · exfalso
        apply hne
        rw [processStep_rejected st mid p m hf hg (Or.inr (Or.inl (by omega)))]
    · rintro ⟨h20, hfil⟩
      rw [processStep_wrap st mid p m hf hg hp hguard h20 hfil]
      intro heq0
      replace heq : setAt p (wrapElem st.ctr (ctxAt p initCtx st.tree) m) st.tree =
          st.tree := heq0
      obtain ⟨u, v, hu, hs⟩ := allIds_setAt p st.tree m hg
      have hset := hs (wrapElem st.ctr (ctxAt p initCtx st.tree) m)
      rw [allIds_wrapElem] at hset
      have hmem : st.ctr ∈
          allIds (setAt p (wrapElem st.ctr (ctxAt p initCtx st.tree) m) st.tree) := by
        rw [hset]
        simp
      rw [heq] at hmem
      have := hwf.2 st.ctr hmem
      omega
  · rintro ⟨h20, hfil⟩
    exact processStep_wrap st mid p m hf hg hp hguard h20 hfil

/-- C3 witness: a 30-character message with one paragraph child is wrapped;
a 19-character message is not; a 51-character message with no structural
child is wrapped. -/
theorem classifier_filter_spec_witness :
    (processStep ⟨exDoc3c, 10⟩ 1).tree ≠ exDoc3c ∧
    ¬ (processStep ⟨exDoc3a, 10⟩ 1).tree ≠ exDoc3a ∧
    (processStep ⟨exDoc3b, 10⟩ 1).tree ≠ exDoc3b ∧
    trimmedLen exMsg3a = 19 ∧ trimmedLen exMsg3b = 51 ∧ trimmedLen exMsg3c = 30 ∧
    hasStructB exMsg3b = false ∧ hasStructB exMsg3c = true :=
  ⟨((classifier_filter_spec ⟨exDoc3c, 10⟩ 1 [0] exMsg3c (by decide) (by decide) rfl
      (by decide) (by decide)).1).mpr ⟨by decide, Or.inl (by decide)⟩,
   fun hne => absurd (((classifier_filter_spec ⟨exDoc3a, 10⟩ 1 [0] exMsg3a (by decide)
      (by decide) rfl (by decide) (by decide)).1).mp hne) (by decide),
   ((classifier_filter_spec ⟨exDoc3b, 10⟩ 1 [0] exMsg3b (by decide) (by decide) rfl
      (by decide) (by decide)).1).mpr ⟨by decide, Or.inr (by decide)⟩,
   by decide, by decide, by decide, by decide, by decide⟩

/-- C6: the preview element of every augmented message carries the preview
source text — the element's own trimmed text when classified as a user
message, otherwise the trimmed text of the response-content sub-element when
present and empty otherwise — truncated to its first 150 characters, with an
ellipsis marker appended exactly when the untruncated text exceeds 150
characters. -/
theorem preview_text_spec (ctr : Nat) (ctx : Ctx) (m : Node) :
    getAt? [1, 0] (wrapElem ctr ctx m) =
      some (.elem (ctr + 7) "div" ["message-preview"] []
        [.text (truncate150 (previewSrc ctx m))]) ∧
    (∀ tc : List Char, tc.length ≤ 150 → truncate150 tc = tc) ∧
    (∀ tc : List Char, 150 < tc.length →
      truncate150 tc = tc.take 150 ++ "...".toList) := by
  refine ⟨getAt?_wrapElem_preview ctr ctx m, ?_, ?_⟩
  · intro tc hle
    rw [truncate150, if_neg (by omega), List.append_nil]
    exact List.take_of_length_le hle
  · intro tc hgt
    rw [truncate150, if_pos hgt]

/-- C6 witness: a 30-character user message previews as its own full text. -/
theorem preview_text_spec_witness :
    getAt? [1, 0] (wrapElem 10 initCtx exMsg6) =
      some (.elem 17 "div" ["message-preview"] []
        [.text (truncate150 (previewSrc initCtx exMsg6))]) ∧
    previewSrc initCtx exMsg6 = List.replicate 30 'a' ∧
    truncate150 (previewSrc initCtx exMsg6) = List.replicate 30 'a' :=
  ⟨(preview_text_spec 10 initCtx exMsg6).1, by decide,
   ((preview_text_spec 10 initCtx exMsg6).2.1 _ (by decide)).trans (by decide)⟩

/-- C7: augmenting an accepted candidate replaces it in place: the wrapper
occupies the element's original position under its original parent, the
original element (with its entire subtree unmodified and in order) becomes
the single child of the content region, every node outside the element's
position is untouched, and no node is cloned (element ids stay distinct). -/
theorem augmentation_no_data_loss (st : St) (mid : Nat) (p : List Nat) (m : Node)
    (hwf : WFst st) (hf : findPath mid st.tree = some p)
    (hg : getAt? p st.tree = some m) (hp : p ≠ [])
    (hguard : ((ctxAt p initCtx st.tree).underWrapper ||
      hasClassB m "message-wrapper") = false)
    (hlen : 20 ≤ trimmedLen m) :
    addToggleToMessage st mid =
      ⟨setAt p (wrapElem st.ctr (ctxAt p initCtx st.tree) m) st.tree, st.ctr + 9⟩ ∧
    getAt? p (addToggleToMessage st mid).tree =
      some (wrapElem st.ctr (ctxAt p initCtx st.tree) m) ∧
    getAt? (p ++ [1, 1, 0]) (addToggleToMessage st mid).tree = some m ∧
    (∀ q, pathLE p q = false → pathLE q p = false →
      getAt? q (addToggleToMessage st mid).tree = getAt? q st.tree) ∧
    WFst (addToggleToMessage st mid) := by
  have heq := addToggle_wrap st mid p m hf hg hp hguard hlen
  refine ⟨heq, ?_, ?_, ?_, ?_⟩
  · rw [heq]
    exact getAt?_setAt_self p _ st.tree m hg
  · rw [heq]
    rw [getAt?_append]
    rw [getAt?_setAt_self p _ st.tree m hg]
    exact getAt?_wrapElem_content st.ctr (ctxAt p initCtx st.tree) m
  · intro q hpq hqp
    rw [heq]
    exact getAt?_setAt_of_disjoint p q _ st.tree hpq hqp
  · rw [heq]
    exact WFst_wrap st p m (ctxAt p initCtx st.tree) hwf hg

/-- C7 witness: a concrete accepted message is relocated intact into the
content region. -/
theorem augmentation_no_data_loss_witness :
    WFst ⟨exDoc7, 5⟩ ∧
    getAt? ([0] ++ [1, 1, 0]) (addToggleToMessage ⟨exDoc7, 5⟩ 1).tree = some exMsg7 ∧
    WFst (addToggleToMessage ⟨exDoc7, 5⟩ 1) :=
  ⟨by decide,
   (augmentation_no_data_loss ⟨exDoc7, 5⟩ 1 [0] exMsg7 (by decide) (by decide) rfl
     (by decide) (by decide) (by decide)).2.2.1,
   (augmentation_no_data_loss ⟨exDoc7, 5⟩ 1 [0] exMsg7 (by decide) (by decide) rfl
     (by decide) (by decide) (by decide)).2.2.2.2⟩

/-- C8: a candidate element that was removed from the document between
classification and augmentation (no element with its identity is in the
tree), or that has no parent node (the document root), makes the
augmentation transform degrade to a no-op: it does not throw (it is a total
function) and performs no document mutation. -/
theorem augment_detached_noop (st : St) (mid : Nat)
    (h : findPath mid st.tree = none ∨ findPath mid st.tree = some []) :
    addToggleToMessage st mid = st := by
  rcases h with h | h
  · exact addToggle_none st mid h
  · exact addToggle_root st mid h

/-- C8 witness: augmenting a vanished element (id 99) changes nothing. -/
theorem augment_detached_noop_witness :
    (findPath 99 exDoc8 = none ∨ findPath 99 exDoc8 = some []) ∧
    addToggleToMessage ⟨exDoc8, 10⟩ 99 = ⟨exDoc8, 10⟩ :=
  ⟨Or.inl (by decide), augment_detached_noop ⟨exDoc8, 10⟩ 99 (Or.inl (by decide))⟩

/-- C10: `addToggleToMessage` enforces its own preconditions independently of
the classifier: called directly on an element already inside a wrapper (or
itself a wrapper), or on an element with trimmed text length below 20, it
returns without mutating the document at all. -/
theorem augment_preconditions_enforced (st : St) (mid : Nat) (p : List Nat) (m : Node)
    (hf : findPath mid st.tree = some p) (hg : getAt? p st.tree = some m)
    (h : ((ctxAt p initCtx st.tree).underWrapper ||
        hasClassB m "message-wrapper") = true ∨
      trimmedLen m < 20) :
    addToggleToMessage st mid = st :=
  addToggle_rejected st mid p m hf hg h

/-- C10 witness: a 30-character message nested inside an existing wrapper is
left alone, and so is a 19-character message outside any wrapper. -/
theorem augment_preconditions_enforced_witness :
    addToggleToMessage ⟨exDoc10, 10⟩ 2 = ⟨exDoc10, 10⟩ ∧
    addToggleToMessage ⟨exDoc3a, 10⟩ 1 = ⟨exDoc3a, 10⟩ :=
  ⟨augment_preconditions_enforced ⟨exDoc10, 10⟩ 2 [0, 0]
      (.elem 2 "div" ["message"] [] [.text (List.replicate 30 'a')])
      (by decide) rfl (Or.inl (by decide)),
   augment_preconditions_enforced ⟨exDoc3a, 10⟩ 1 [0] exMsg3a
      (by decide) rfl (Or.inr (by decide))⟩

/-! ## Claim C2: idempotence of the scan+augment cycle -/

theorem not_mem_cons_of (a c : Nat) (cs : List Nat) (h1 : a ≠ c) (h2 : a ∉ cs) :
    a ∉ c :: cs := by
  intro h
  rcases List.mem_cons.mp h with h | h
  · exact h1 h
  · exact h2 h

theorem matchesAny_congr (n n' : Node) (h : nodeData n = nodeData n') :
    matchesAny n = matchesAny n' := by
  have hcomp := h
  simp only [nodeData, Prod.mk.injEq] at hcomp
  obtain ⟨h1, h2, h3, h4, h5⟩ := hcomp
  simp only [matchesAny, selList, List.any_cons, List.any_nil, sel1, sel2, sel3, sel4,
    sel5, sel6, sel7, sel8, sel9, hasClassB, classAttrC, attrIs, h2, h3, h4, h5]

theorem processStep_preserves_inv (st : St) (c : Nat) (cs : List Nat)
    (hwf : WFst st) (hinv : scanInv (c :: cs) st) :
    WFst (processStep st c) ∧ scanInv cs (processStep st c) := by
  cases hf : findPath c st.tree with
  | none =>
      rw [processStep_none st c hf]
      refine ⟨hwf, ?_⟩
      intro q n hg hi hm hq hguard hnotin
      by_cases hec : eidN n = c
      · exfalso
        have hcomp := findPath_complete q st.tree n c hg hi hec
        rw [hf] at hcomp
        simp at hcomp
      · exact hinv q n hg hi hm hq hguard (not_mem_cons_of _ c cs hec hnotin)
  | some p =>
      cases hgp : getAt? p st.tree with
      | none =>
          exfalso
          obtain ⟨n0, hg0, _, _⟩ := findPath_sound c st.tree p hf
          rw [hgp] at hg0
          exact Option.noConfusion hg0
      | some m =>
          obtain ⟨n0, hg0, hi0, he0⟩ := findPath_sound c st.tree p hf
          rw [hgp] at hg0
          injection hg0 with hnm
          subst hnm
          by_cases hguard : ((ctxAt p initCtx st.tree).underWrapper ||
              hasClassB m "message-wrapper") = true
          · rw [processStep_rejected st c p m hf hgp (Or.inl hguard)]
            refine ⟨hwf, ?_⟩
            intro q n hg hi hm2 hq hguard2 hnotin
            by_cases hec : eidN n = c
            · exfalso
              have hqp : q = p := getAt?_eid_unique q st.tree p n m hwf.1 hg hgp hi hi0
                (by rw [hec, he0])
              subst hqp
              rw [hg] at hgp
              have hnm := Option.some_inj.mp hgp
              rw [← hnm] at hguard
              rw [hguard2] at hguard
              exact Bool.false_ne_true hguard
            · exact hinv q n hg hi hm2 hq hguard2 (not_mem_cons_of _ c cs hec hnotin)
          · have hguardF : ((ctxAt p initCtx st.tree).underWrapper ||
                hasClassB m "message-wrapper") = false := Bool.eq_false_iff.mpr hguard
            by_cases h20 : trimmedLen m < 20
            · rw [processStep_rejected st c p m hf hgp (Or.inr (Or.inl h20))]
              refine ⟨hwf, ?_⟩
              intro q n hg hi hm2 hq hguard2 hnotin
              by_cases hec : eidN n = c
              · have hqp : q = p := getAt?_eid_unique q st.tree p n m hwf.1 hg hgp hi hi0
                  (by rw [hec, he0])
                subst hqp
                rw [hg] at hgp
                have hnm := Option.some_inj.mp hgp
                subst hnm
                rintro ⟨ha, _⟩
                omega
              · exact hinv q n hg hi hm2 hq hguard2 (not_mem_cons_of _ c cs hec hnotin)
            · by_cases hfil : hasStructB m = true ∨ 50 < trimmedLen m
              · cases p with
                | nil =>
                    rw [processStep_root st c hf]
                    refine ⟨hwf, ?_⟩
                    intro q n hg hi hm2 hq hguard2 hnotin
                    by_cases hec : eidN n = c
                    · exfalso
                      have hqp : q = [] := getAt?_eid_unique q st.tree [] n m hwf.1 hg hgp
                        hi hi0 (by rw [hec, he0])
                      exact hq hqp
                    · exact hinv q n hg hi hm2 hq hguard2 (not_mem_cons_of _ c cs hec hnotin)
                | cons i0 p0 =>
                    have hw := processStep_wrap st c (i0 :: p0) m hf hgp (by simp)
                      hguardF (by omega) hfil
                    rw [hw]
                    constructor
                    · exact WFst_wrap st (i0 :: p0) m _ hwf hgp
                    · intro q n hg0' hi hm2 hq hguard2' hnotin
                      replace hg : getAt? q
                          (setAt (i0 :: p0)
                            (wrapElem st.ctr (ctxAt (i0 :: p0) initCtx st.tree) m)
                            st.tree) = some n := hg0'
                      replace hguard2 : ((ctxAt q initCtx
                          (setAt (i0 :: p0)
                            (wrapElem st.ctr (ctxAt (i0 :: p0) initCtx st.tree) m)
                            st.tree)).underWrapper ||
                          hasClassB n "message-wrapper") = false := hguard2'
                      have hW : getAt? (i0 :: p0)
                          (setAt (i0 :: p0)
                            (wrapElem st.ctr (ctxAt (i0 :: p0) initCtx st.tree) m)
                            st.tree) =
                          some (wrapElem st.ctr (ctxAt (i0 :: p0) initCtx st.tree) m) :=
                        getAt?_setAt_self _ _ _ m hgp
                      by_cases hPq : pathLE (i0 :: p0) q = true
                      · obtain ⟨r, rfl⟩ := (pathLE_iff _ _).mp hPq
                        cases r with
                        | nil =>
                            exfalso
                            rw [List.append_nil] at hg
                            rw [hW] at hg
                            have hnW := Option.some_inj.mp hg
                            rw [← hnW, wrapElem_hasWrapperClass] at hguard2
                            simp at hguard2
                        | cons r0 rr =>
                            exfalso
                            have hv : (getAt? ((i0 :: p0) ++ (r0 :: rr))
                                (setAt (i0 :: p0)
                                  (wrapElem st.ctr (ctxAt (i0 :: p0) initCtx st.tree) m)
                                  st.tree)).isSome = true := by
                              rw [hg]; rfl
                            have hunder := ctxAt_append_underWrapper (i0 :: p0) (r0 :: rr)
                              initCtx _ _ hW (wrapElem_hasWrapperClass _ _ _)
                              (by simp) hv
                            rw [hunder] at hguard2
                            simp at hguard2
                      · have hPq' : pathLE (i0 :: p0) q = false := Bool.eq_false_iff.mpr hPq
                        by_cases hqP : pathLE q (i0 :: p0) = true
                        · exfalso
                          have hqne : q ≠ i0 :: p0 := by
                            intro h
                            rw [h] at hPq
                            exact hPq (pathLE_refl _)
                          obtain ⟨r, hr⟩ := (pathLE_iff q (i0 :: p0)).mp hqP
                          have hrne : r ≠ [] := by
                            intro h
                            rw [h, List.append_nil] at hr
                            exact hqne hr.symm
                          have hdata := nodeData_getAt?_setAt_above q (i0 :: p0)
                            (wrapElem st.ctr (ctxAt (i0 :: p0) initCtx st.tree) m)
                            st.tree hqP hqne
                          rw [hg] at hdata
                          cases hgq : getAt? q st.tree with
                          | none =>
                              rw [hgq] at hdata
                              simp at hdata
                          | some nq =>
                              rw [hgq] at hdata
                              simp only [Option.map_some'] at hdata
                              have hdata2 := Option.some_inj.mp hdata
                              have hcomp := hdata2
                              simp only [nodeData, Prod.mk.injEq] at hcomp
                              obtain ⟨hceid, hctag, hccls, hcats, hcelem⟩ := hcomp
                              have hctx : ctxAt q initCtx
                                  (setAt (i0 :: p0)
                                    (wrapElem st.ctr (ctxAt (i0 :: p0) initCtx st.tree) m)
                                    st.tree) = ctxAt q initCtx st.tree :=
                                ctxAt_setAt q (i0 :: p0) initCtx _ st.tree hPq'
                              have hclsq : hasClassB nq "message-wrapper" =
                                  hasClassB n "message-wrapper" := by
                                rw [hasClassB, hasClassB, ← hccls]
                              have hguardq : ((ctxAt q initCtx st.tree).underWrapper ||
                                  hasClassB nq "message-wrapper") = false := by
                                rw [hclsq, ← hctx]
                                exact hguard2
                              have hne_c : eidN nq ≠ c := by
                                intro hceq
                                exact hqne (getAt?_eid_unique q st.tree (i0 :: p0) nq m
                                  hwf.1 hgq hgp (by rw [← hcelem]; exact hi) hi0
                                  (by rw [hceq, he0]))
                              have hnfilq := hinv q nq hgq (by rw [← hcelem]; exact hi)
                                (by rw [← matchesAny_congr n nq hdata2]; exact hm2) hq
                                hguardq
                                (not_mem_cons_of _ c cs hne_c (by rw [← hceid]; exact hnotin))
                              apply hnfilq
                              have hgm : getAt? r nq = some m := by
                                have hqr : getAt? (q ++ r) st.tree = some m := by
                                  rw [← hr]
                                  exact hgp
                                rw [getAt?_append, hgq] at hqr
                                exact hqr
                              constructor
                              · have := trimmedLen_le_subtree r nq m hgm
                                omega
                              · rcases hfil with hstruct | hlen50
                                · exact Or.inl (hasStructB_of_below r nq m hrne hgm
                                    (structIncl_of_hasStructB m hstruct))
                                · refine Or.inr ?_
                                  have := trimmedLen_le_subtree r nq m hgm
                                  omega
                        · have hqP' : pathLE q (i0 :: p0) = false := Bool.eq_false_iff.mpr hqP
                          have hgq : getAt? q st.tree = some n := by
                            rw [← getAt?_setAt_of_disjoint (i0 :: p0) q
                              (wrapElem st.ctr (ctxAt (i0 :: p0) initCtx st.tree) m)
                              st.tree hPq' hqP']
                            exact hg
                          have hctx : ctxAt q initCtx
                              (setAt (i0 :: p0)
                                (wrapElem st.ctr (ctxAt (i0 :: p0) initCtx st.tree) m)
                                st.tree) = ctxAt q initCtx st.tree :=
                            ctxAt_setAt q (i0 :: p0) initCtx _ st.tree hPq'
                          have hne_c : eidN n ≠ c := by
                            intro hceq
                            have hqp : q = i0 :: p0 := getAt?_eid_unique q st.tree
                              (i0 :: p0) n m hwf.1 hgq hgp hi hi0 (by rw [hceq, he0])
                            rw [hqp] at hqP
                            exact hqP (pathLE_refl _)
                          exact hinv q n hgq hi hm2 hq (by rw [← hctx]; exact hguard2)
                            (not_mem_cons_of _ c cs hne_c hnotin)
              · have h1 : hasStructB m = false := by
                  rcases Bool.eq_false_or_eq_true (hasStructB m) with h | h
                  · exact absurd (Or.inl h) hfil
                  · exact h
                have h2 : trimmedLen m ≤ 50 := by
                  by_contra hgt
                  exact hfil (Or.inr (by omega))
                rw [processStep_rejected st c p m hf hgp (Or.inr (Or.inr ⟨h1, h2⟩))]
                refine ⟨hwf, ?_⟩
                intro q n hg hi hm2 hq hguard2 hnotin
                by_cases hec : eidN n = c
                · have hqp : q = p := getAt?_eid_unique q st.tree p n m hwf.1 hg hgp hi hi0
                    (by rw [hec, he0])
                  subst hqp
                  rw [hg] at hgp
                  have hnm := Option.some_inj.mp hgp
                  subst hnm
                  rintro ⟨ha, hb⟩
                  rcases hb with hb | hb
                  · rw [h1] at hb
                    exact Bool.false_ne_true hb
                  · omega
                · exact hinv q n hg hi hm2 hq hguard2 (not_mem_cons_of _ c cs hec hnotin)

theorem processRun_inv (cs : List Nat) : ∀ st : St, WFst st → scanInv cs st →
    WFst (cs.foldl processStep st) ∧ scanInv [] (cs.foldl processStep st) := by
  induction cs with
  | nil =>
      intro st hwf hinv
      exact ⟨hwf, hinv⟩
  | cons c cs ih =>
      intro st hwf hinv
      obtain ⟨hwf2, hinv2⟩ := processStep_preserves_inv st c cs hwf hinv
      simpa [List.foldl_cons] using ih (processStep st c) hwf2 hinv2

theorem processMessages_inv (st : St) (hwf : WFst st) :
    WFst (processMessages st) ∧ scanInv [] (processMessages st) := by
  rw [processMessages]
  refine processRun_inv (candidates st.tree) st hwf ?_
  intro q n hg hi hm hq hguard hnotin
  exact absurd (candidates_complete st.tree q n hg hm) hnotin

theorem processRun_noop : ∀ (cs : List Nat) (st : St),
    (∀ c ∈ cs, processStep st c = st) → cs.foldl processStep st = st := by
  intro cs
  induction cs with
  | nil => intro st _; rfl
  | cons c cs ih =>
      intro st h
      rw [List.foldl_cons, h c (by simp)]
      exact ih st (fun c2 hc2 => h c2 (by simp [hc2]))

theorem processStep_noop_of_inv (st : St) (hwf : WFst st) (hinv : scanInv [] st)
    (c : Nat) (hc : c ∈ candidates st.tree) : processStep st c = st := by
  obtain ⟨q, n, hg, hm, he, hi⟩ := candidates_sound st.tree c hc
  have hf : findPath c st.tree = some q := by
    have hfp := findPath_eq_of_getAt? st.tree q n hwf.1 hg hi
    rwa [he] at hfp
  cases q with
  | nil => exact processStep_root st c hf
  | cons j q' =>
      by_cases hguard : ((ctxAt (j :: q') initCtx st.tree).underWrapper ||
          hasClassB n "message-wrapper") = true
      · exact processStep_rejected st c (j :: q') n hf hg (Or.inl hguard)
      · have hguardF := Bool.eq_false_iff.mpr hguard
        have hnfil := hinv (j :: q') n hg hi hm (by simp) hguardF (by simp)
        by_cases h20 : trimmedLen n < 20
        · exact processStep_rejected st c (j :: q') n hf hg (Or.inr (Or.inl h20))
        · have h1 : hasStructB n = false := by
            rcases Bool.eq_false_or_eq_true (hasStructB n) with h | h
            · exact absurd ⟨by omega, Or.inl h⟩ hnfil
            · exact h
          have h2 : trimmedLen n ≤ 50 := by
            by_contra hgt
            exact hnfil ⟨by omega, Or.inr (by omega)⟩
          exact processStep_rejected st c (j :: q') n hf hg (Or.inr (Or.inr ⟨h1, h2⟩))

/-- C2: the scan+augment cycle is idempotent.  For every well-formed document
state, running `processMessages` a second time immediately after a first run
returns the state unchanged — zero additional wrappers are created and no
existing wrapper structure changes — because every element already inside a
wrapper (including the wrapper and its own augmentation nodes when they match
the selectors) is rejected by the ancestor-wrapper guard, and every other
candidate still fails the acceptance filter it failed on the first run. -/
theorem processMessages_idempotent (st : St) (hwf : WFst st) :
    processMessages (processMessages st) = processMessages st := by
  obtain ⟨hwf1, hinv1⟩ := processMessages_inv st hwf
  conv_lhs => rw [processMessages]
  exact processRun_noop (candidates (processMessages st).tree) (processMessages st)
    (fun c hc => processStep_noop_of_inv (processMessages st) hwf1 hinv1 c hc)

/-- C2 witness: a concrete two-message document; the second scan changes
nothing. -/
theorem processMessages_idempotent_witness :
    WFst ⟨exDoc2, 10⟩ ∧
    processMessages (processMessages ⟨exDoc2, 10⟩) = processMessages ⟨exDoc2, 10⟩ :=
  ⟨by decide, processMessages_idempotent ⟨exDoc2, 10⟩ (by decide)⟩

end ChatCollapser
